import Mathlib

/-!
Verification development for the Template Reconstruction Engine
(backend/app/services/analyzer.py, ai_mapper.py, renderer.py).

The Python code is shallowly embedded: paragraphs, runs, sections and
body items become Lean structures; the pure algorithms (chunk merging,
body deduplication, safe-zone front-matter update, body rebuild) become
executable Lean functions translated line by line from the source.
Python strings are modelled as Lean `String`s over their character
lists; the anchored regular expressions used by the source are unrolled
into explicit character-list scans.
-/

namespace Optira

/-! ## Generic helpers -/

/-- Substring containment test: `containsSub hay needle` holds when
`needle` occurs contiguously in `hay` (Python's `in` on `str`). -/
def containsSubList (needle : List Char) : List Char → Bool
  | [] => needle.isEmpty
  | c :: rest => needle.isPrefixOf (c :: rest) || containsSubList needle rest

def containsSub (hay needle : String) : Bool :=
  containsSubList needle.data hay.data

/-- Python `str.strip()`: drop whitespace from both ends. -/
def pyStrip (s : String) : String :=
  String.mk (((s.data.dropWhile Char.isWhitespace).reverse.dropWhile Char.isWhitespace).reverse)

/-- Python `str.lower()` (ASCII case folding). -/
def pyLower (s : String) : String :=
  String.mk (s.data.map Char.toLower)

/-- Replace the element at index `i`, if any (in-place mutation of a
Python list / document at one index). -/
def modifyAt : List α → Nat → (α → α) → List α
  | [], _, _ => []
  | x :: xs, 0, f => f x :: xs
  | x :: xs, n + 1, f => x :: modifyAt xs n f

/-- Dictionary lookup for a `String`-keyed association list
(Python `dict` lookup; keys are unique by construction). -/
def alookup : List (String × Nat) → String → Option Nat
  | [], _ => none
  | (k, v) :: rest, key => if k = key then some v else alookup rest key

/-! ## Data model

`Run` and `Para` model python-docx runs and paragraphs: a paragraph
carries its style name, its runs, and its alignment; its text is the
concatenation of its runs' texts.  `BodyItem` and `Section` model the
JSON section objects produced by the mapping collaborator; a section
body is either a raw string (legacy format) or a list of typed items,
matching the `isinstance(body, str)` handling in the source. -/

structure Run where
  text : String
  fontName : Option String
  sizePt : Option Nat
  bold : Option Bool
  italic : Option Bool
  color : Option String
deriving Repr, DecidableEq

/-- A run with text only, no direct formatting (python-docx `add_run`). -/
def plainRun (t : String) : Run := ⟨t, none, none, none, none, none⟩

structure Para where
  style : String
  runs : List Run
  centered : Bool
deriving Repr, DecidableEq

/-- `paragraph.text`: concatenation of the texts of the runs. -/
def Para.text (p : Para) : String :=
  String.join (p.runs.map Run.text)

structure BodyItem where
  type : String
  content : String
deriving Repr, DecidableEq

inductive Body where
  | str (s : String)
  | items (l : List BodyItem)
deriving Repr, DecidableEq

/-- `if isinstance(body, str): body = [{"type": "text", "content": body}]` -/
def Body.toItems : Body → List BodyItem
  | .str s => [⟨"text", s⟩]
  | .items l => l

structure Section where
  title : String
  body : Body
deriving Repr, DecidableEq

/-! ## Chunk Merger (ai_mapper._merge_section_mappings) -/

/-- `title.lower().strip()`: normalized section title. -/
def normTitle (t : String) : String :=
  pyStrip (pyLower t)

/-- Body concatenation used by both merge passes: each side is converted
to an item list if it is a raw string, then the lists are concatenated
(earlier chunk's items first). -/
def mergeBodies (b1 b2 : Body) : Body :=
  .items (b1.toItems ++ b2.toItems)

/-- Merge the body of section `s` with that of section `t` (the section
keeps its own title; only the body grows). -/
def mergeInto (s t : Section) : Section :=
  ⟨s.title, mergeBodies s.body t.body⟩

/-- One step of the boundary-merge pass: fold the next chunk's sections
into the accumulated list, fusing the accumulator's last section with
the chunk's first section when both normalized titles are nonempty and
equal (ai_mapper.py lines 341-379). -/
def mergeStep (acc : List Section) (chunk : List Section) : List Section :=
  match chunk with
  | [] => acc
  | first :: rest =>
    match acc.getLast? with
    | none => chunk
    | some last =>
      if normTitle last.title ≠ "" ∧ normTitle first.title ≠ "" ∧
          normTitle last.title = normTitle first.title then
        acc.dropLast ++ [mergeInto last first] ++ rest
      else
        acc ++ chunk

/-- The full boundary-merge pass over all chunk results. -/
def boundaryMerge (all : List (List Section)) : List Section :=
  all.foldl mergeStep []

/-- Global deduplication pass (ai_mapper.py lines 384-412): walk the
boundary-merged list keeping `deduplicated` (the output so far) and
`seen` (dict from normalized title to the index of its first occurrence
in the output); a repeated title merges its body into the recorded
index, a new title is appended and recorded. -/
def dedupGo : List Section → List Section → List (String × Nat) → List Section
  | [], out, _ => out
  | s :: rest, out, seen =>
    match alookup seen (normTitle s.title) with
    | some i => dedupGo rest (modifyAt out i (fun e => mergeInto e s)) seen
    | none => dedupGo rest (out ++ [s]) (seen ++ [(normTitle s.title, out.length)])

def dedupSections (l : List Section) : List Section :=
  dedupGo l [] []

/-- The `seen` dictionary built while appending the sections of `l`
starting at output position `offset` (used to reason about `dedupGo`
runs over prefixes with distinct titles). -/
def seenEntries (offset : Nat) : List Section → List (String × Nat)
  | [] => []
  | s :: rest => (normTitle s.title, offset) :: seenEntries (offset + 1) rest

/-- `_merge_section_mappings`: empty input gives `[]`; a single
chunk-result list is returned unchanged; otherwise boundary merge then
global dedup. -/
def merge_section_mappings (all : List (List Section)) : List Section :=
  match all with
  | [] => []
  | [single] => single
  | _ => dedupSections (boundaryMerge all)

/-! ## Specification-side list helpers (used to state the claims) -/

/-- First-occurrence deduplication of a list of strings relative to an
already-seen set: the order of first occurrences is preserved. -/
def firstSeenFrom (seen : List String) : List String → List String
  | [] => []
  | x :: xs =>
    if x ∈ seen then firstSeenFrom seen xs
    else x :: firstSeenFrom (x :: seen) xs

def firstSeen (l : List String) : List String :=
  firstSeenFrom [] l

/-- All body items contributed, in order, by the sections of `l` whose
normalized title is `n`. -/
def itemsOfNorm (n : String) (l : List Section) : List BodyItem :=
  (l.filter (fun s => normTitle s.title = n)).foldr
    (fun s acc => s.body.toItems ++ acc) []

/-! ## Renderer: bullet cleaning (renderer.clean_bullet_text) -/

/-- `^[-*•]\s*`: one dash/asterisk/bullet glyph then optional whitespace. -/
def stripDashMarker (s : String) : String :=
  match s.data with
  | c :: rest =>
    if c = '-' ∨ c = '*' ∨ c = '•' then String.mk (rest.dropWhile Char.isWhitespace)
    else s
  | [] => s

/-- `^\d+\.\s*`: digits, a dot, then optional whitespace. -/
def stripNumberedMarker (s : String) : String :=
  if (s.data.takeWhile Char.isDigit).isEmpty then s
  else
    match s.data.dropWhile Char.isDigit with
    | '.' :: rest => String.mk (rest.dropWhile Char.isWhitespace)
    | _ => s

/-- `^[a-zA-Z]\.\s*`: a single letter, a dot, then optional whitespace. -/
def stripLetterDotMarker (s : String) : String :=
  match s.data with
  | c :: '.' :: rest =>
    if c.isAlpha then String.mk (rest.dropWhile Char.isWhitespace) else s
  | _ => s

/-- `^[a-zA-Z]\)\s*`: a single letter, a closing paren, then optional whitespace. -/
def stripLetterParenMarker (s : String) : String :=
  match s.data with
  | c :: ')' :: rest =>
    if c.isAlpha then String.mk (rest.dropWhile Char.isWhitespace) else s
  | _ => s

/-- `clean_bullet_text`: strip, apply the four anchored marker patterns
in order, strip again (renderer.py lines 18-34). -/
def clean_bullet_text (text : String) : String :=
  pyStrip (stripLetterParenMarker (stripLetterDotMarker
    (stripNumberedMarker (stripDashMarker (pyStrip text)))))

/-! ## Renderer: per-section body deduplication (renderer.py lines 363-412) -/

/-- Character class of `^[-*•\d.)\s]+`. -/
def isMarkerChar (c : Char) : Bool :=
  c = '-' || c = '*' || c = '•' || c.isDigit || c = '.' || c = ')' || c.isWhitespace

/-- `re.sub(r'^[-*•\d.)\s]+', '', content).lower()` applied to the
stripped content of a body item. -/
def normContent (content : String) : String :=
  pyLower (String.mk ((pyStrip content).data.dropWhile isMarkerChar))

def BodyItem.norm (it : BodyItem) : String :=
  normContent it.content

/-- `content_groups[n]`: the body items with nonempty stripped content
whose normalized content is `n`, in arrival order (grouping pass,
renderer.py lines 367-378). -/
def contentGroups (body : List BodyItem) (n : String) : List BodyItem :=
  body.filter (fun it => pyStrip it.content ≠ "" ∧ it.norm = n)

/-- Selection among duplicates: the first bullet-typed candidate wins,
else the first subheading-typed one, else the current (first-seen)
item (renderer.py lines 396-407). -/
def pickBest (current : BodyItem) (candidates : List BodyItem) : BodyItem :=
  match candidates.find? (fun c => c.type = "bullet") with
  | some b => b
  | none =>
    match candidates.find? (fun c => c.type = "subheading") with
    | some sh => sh
    | none => current

/-- Selection pass: walk the original body, emit one best item per
first-seen nonempty normalized content (renderer.py lines 381-410). -/
def dedupBodyGo (whole : List BodyItem) : List BodyItem → List String → List BodyItem
  | [], _ => []
  | item :: rest, seen =>
    let n := item.norm
    if n = "" ∨ n ∈ seen then dedupBodyGo whole rest seen
    else pickBest item (contentGroups whole n) :: dedupBodyGo whole rest (n :: seen)

def dedupBody (body : List BodyItem) : List BodyItem :=
  dedupBodyGo body body []

/-! ## Renderer: cover-title detection (renderer._detect_cover_title) -/

/-- Multi-factor score of one candidate paragraph (renderer.py lines 59-97). -/
def coverScore (idx : Nat) (p : Para) (text : String) : Int :=
  let style := pyLower p.style
  (if containsSub style "title" then 100 else 0)
  + (if containsSub style "cover" then 80 else 0)
  + (if containsSub style "heading" ∧ containsSub style "1" then 50 else 0)
  + (match p.runs with
     | [] => 0
     | r :: _ =>
       (match r.sizePt with
        | some pt => if 0 < pt then min (pt : Int) 50 else 0
        | none => 0)
       + (if r.bold = some true then 20 else 0))
  + (if p.centered then 15 else 0)
  + ((10 : Int) - (idx : Int)) * 2
  + (if 150 < text.length then -30 else 0)

/-- Scored candidates among the first `min 10 safeZoneEnd` paragraphs;
empty or very short texts are skipped. -/
def coverCandidates (doc : List Para) (safeZoneEnd : Nat) : List (Int × Nat) :=
  ((doc.take (min 10 safeZoneEnd)).enum).filterMap (fun ip =>
    if pyStrip ip.2.text = "" ∨ (pyStrip ip.2.text).length < 5 then none
    else some (coverScore ip.1 ip.2 (pyStrip ip.2.text), ip.1))

/-- Highest-scoring candidate, earliest index on ties (the Python code
stable-sorts descending by score and takes the head), returned only
when its score exceeds 20. -/
def detect_cover_title (doc : List Para) (safeZoneEnd : Nat) : Option Nat :=
  match coverCandidates doc safeZoneEnd with
  | [] => none
  | c :: rest =>
    let best := rest.foldl (fun b x => if b.1 < x.1 then x else b) c
    if 20 < best.1 then some best.2 else none

/-- Rewrite a paragraph's text in place, preserving formatting: the
first run receives the new text, later runs are cleared; a run-less
paragraph gets a fresh plain run (renderer.py lines 139-149, 234-242). -/
def rewriteRunsWith (t : String) (p : Para) : Para :=
  match p.runs with
  | [] => { p with runs := [plainRun t] }
  | r0 :: rest =>
    { p with runs := { r0 with text := t } :: rest.map (fun r => { r with text := "" }) }

/-! ## Renderer: TOC detection and rewrite (renderer._update_safe_zone) -/

/-- `"\t" in para.text`. -/
def hasTabChar (s : String) : Bool :=
  s.data.contains '\t'

/-- `"..." in text or "․․․" in text` (dotted leaders). -/
def hasDots (text : String) : Bool :=
  containsSub text "..." || containsSub text "․․․"

/-- `re.match(r'^\d+[\.\)]\s+\w+', text)`: leading number, dot or paren,
at least one whitespace, then a word character. -/
def hasNumberPat (text : String) : Bool :=
  let cs := text.data
  !(cs.takeWhile Char.isDigit).isEmpty &&
    (match cs.dropWhile Char.isDigit with
     | c :: rest =>
       (c = '.' || c = ')') &&
         (!(rest.takeWhile Char.isWhitespace).isEmpty &&
           (match rest.dropWhile Char.isWhitespace with
            | d :: _ => d.isAlphanum || d = '_'
            | [] => false))
     | [] => false)

/-- `re.search(r'\d+\s*$', text)`: the text ends with digits followed by
optional whitespace. -/
def endsWithNumber (text : String) : Bool :=
  match text.data.reverse.dropWhile Char.isWhitespace with
  | c :: _ => c.isDigit
  | [] => false

/-- One step of the TOC scan (renderer.py lines 157-188), carrying the
running `toc_start` (−1 until a heading is seen) and the collected
entry indices. -/
def tocScanStep (st : Int × List Nat) (ip : Nat × Para) : Int × List Nat :=
  if containsSub (pyLower (pyStrip ip.2.text)) "table of contents" ∨
      containsSub (pyLower (pyStrip ip.2.text)) "contents" then
    ((ip.1 : Int), st.2)
  else if containsSub (pyLower ip.2.style) "toc" ∧ st.1 < (ip.1 : Int) then
    (st.1, st.2 ++ [ip.1])
  else if 0 ≤ st.1 ∧ pyStrip ip.2.text ≠ "" ∧
      (hasTabChar ip.2.text ∨ hasDots (pyStrip ip.2.text) ∨
        hasNumberPat (pyStrip ip.2.text) ∨ endsWithNumber (pyStrip ip.2.text)) then
    (st.1, st.2 ++ [ip.1])
  else
    st

/-- Scan the safe zone for TOC entry paragraph indices. -/
def tocDetect (doc : List Para) (safeZoneEnd : Nat) : List Nat :=
  (((doc.take safeZoneEnd).enum).foldl tocScanStep (-1, [])).2

/-- Index of the first run of at least two consecutive dots
(`re.search(r'\.{2,}', text)`). -/
def dotRunStart : List Char → Option Nat
  | '.' :: '.' :: _ => some 0
  | _ :: rest => (dotRunStart rest).map (· + 1)
  | [] => none

/-- Index of the first tab character, `str.find`-style. -/
def tabIndex (cs : List Char) : Option Nat :=
  cs.findIdx? (· = '\t')

/-- The split point for a TOC entry: length of the text, lowered to the
start of the first dot run, and to the first tab only when the tab is at
a positive index (renderer.py lines 215-223, note `tab_idx > 0`). -/
def tocSplitIdx (cs : List Char) : Nat :=
  let s0 := cs.length
  let s1 := match dotRunStart cs with
    | some d => min s0 d
    | none => s0
  match tabIndex cs with
  | some t => if 0 < t then min s1 t else s1
  | none => s1

/-- `re.sub(r'^\d+[\.\)]\s*', '', new_title)`: strip a leading
numbering marker from the incoming title. -/
def stripLeadingNumbering (s : String) : String :=
  if (s.data.takeWhile Char.isDigit).isEmpty then s
  else
    match s.data.dropWhile Char.isDigit with
    | c :: rest =>
      if c = '.' ∨ c = ')' then String.mk (rest.dropWhile Char.isWhitespace) else s
    | [] => s

/-- The new text written into TOC entry number `ordinal` (1-based):
`"{ordinal}. {cleaned title}{trailing part}"` where the trailing part is
the original text from the split point on. -/
def tocNewText (ordinal : Nat) (newTitle : String) (origText : String) : String :=
  let cs := origText.data
  let trailing := String.mk (cs.drop (tocSplitIdx cs))
  toString ordinal ++ ". " ++ stripLeadingNumbering newTitle ++ trailing

/-- Rewrite pass over the detected entries paired with the available
titles (`zip` truncates to the shorter list, matching the `break` when
entries outnumber titles); `i` is the running 0-based ordinal. -/
def tocRewriteGo (i : Nat) : List Para → List (Nat × String) → List Para
  | doc, [] => doc
  | doc, (pidx, title) :: rest =>
    tocRewriteGo (i + 1)
      (modifyAt doc pidx (fun p => rewriteRunsWith (tocNewText (i + 1) title (p.text)) p))
      rest

/-- STEP 3 of `_update_safe_zone`: update the detected TOC entries with
the section titles (a no-op when either list is empty). -/
def tocRewrite (doc : List Para) (entries : List Nat) (titles : List String) : List Para :=
  tocRewriteGo 0 doc (entries.zip titles)

/-- The effective document title: the explicit one, or the first
section title when the explicit one is empty (renderer.py lines 129-131). -/
def effectiveTitle (documentTitle : String) (sectionTitles : List String) : String :=
  if documentTitle = "" then
    match sectionTitles with
    | [] => ""
    | t :: _ => t
  else documentTitle

/-- STEP 1 of `_update_safe_zone`: rewrite the detected cover-title
paragraph, if any, with the document title. -/
def coverPass (doc : List Para) (safeZoneEnd : Nat) (title : String) : List Para :=
  if title = "" then doc
  else
    match detect_cover_title doc safeZoneEnd with
    | none => doc
    | some i => modifyAt doc i (rewriteRunsWith title)

/-- `_update_safe_zone`: cover rewrite, then TOC detection on the
updated document, then TOC rewrite. -/
def update_safe_zone (doc : List Para) (safeZoneEnd : Nat)
    (sectionTitles : List String) (documentTitle : String) : List Para :=
  let d1 := coverPass doc safeZoneEnd (effectiveTitle documentTitle sectionTitles)
  tocRewrite d1 (tocDetect d1 safeZoneEnd) sectionTitles

/-! ## Template DNA (analyzer.TemplateDNA) -/

structure TemplateDNA where
  heading_style_name : String
  heading_font_name : Option String
  heading_font_size : Option Nat
  heading_font_color : Option String
  heading_font_bold : Option Bool
  subheading_style_name : String
  subheading_font_name : Option String
  subheading_font_size : Option Nat
  subheading_font_color : Option String
  subheading_font_bold : Option Bool
  body_style_name : String
  body_font_name : Option String
  body_font_size : Option Nat
  body_font_color : Option String
  body_font_bold : Option Bool
  body_font_italic : Option Bool
  bullet_style_name : String
  bullet_font_name : Option String
  bullet_font_size : Option Nat
  safe_zone_end_idx : Nat
  first_content_section_idx : Nat
deriving Repr, DecidableEq

/-- Python truthiness of an optional string (`None` and `""` are falsy). -/
def optStrTruthy : Option String → Bool
  | some s => s ≠ ""
  | none => false

/-- Python truthiness of an optional number (`None` and `0` are falsy). -/
def optNatTruthy : Option Nat → Bool
  | some n => n ≠ 0
  | none => false

/-! ## Renderer: paragraph emission (renderer.py lines 416-520)

`styles` is the set of style names defined in the template document;
python-docx raises when `add_paragraph` is given an unknown style name,
which drives the subheading and bullet fallbacks. -/

/-- `doc.add_paragraph(text, style)`: a fresh paragraph whose single
plain run carries `text` (no run is created for empty text). -/
def freshPara (styleName text : String) : Para :=
  ⟨styleName, if text = "" then [] else [plainRun text], false⟩

def applyHeadingFonts (dna : TemplateDNA) (r : Run) : Run :=
  let r := if optStrTruthy dna.heading_font_name then { r with fontName := dna.heading_font_name } else r
  let r := if optNatTruthy dna.heading_font_size then { r with sizePt := dna.heading_font_size } else r
  let r := if dna.heading_font_bold.isSome then { r with bold := dna.heading_font_bold } else r
  if optStrTruthy dna.heading_font_color then { r with color := dna.heading_font_color } else r

/-- The section heading paragraph, in the template's heading style. -/
def emitHeadingPara (dna : TemplateDNA) (title : String) : Para :=
  let p := freshPara dna.heading_style_name title
  match p.runs with
  | [] => p
  | r :: rest => { p with runs := applyHeadingFonts dna r :: rest }

def applySubheadingFonts (dna : TemplateDNA) (r : Run) : Run :=
  let r := if optStrTruthy dna.subheading_font_name then { r with fontName := dna.subheading_font_name } else r
  let r :=
    if optNatTruthy dna.subheading_font_size then { r with sizePt := dna.subheading_font_size }
    else if optNatTruthy dna.body_font_size then
      { r with sizePt := some ((dna.body_font_size.getD 0) * 11 / 10) }
    else r
  if dna.subheading_font_bold.isSome then { r with bold := dna.subheading_font_bold } else r

/-- A `subheading` body item: the subheading style when the document has
it, otherwise the body style with bold forced on the run. -/
def emitSubheadingPara (styles : List String) (dna : TemplateDNA) (content : String) : Para :=
  let p :=
    if dna.subheading_style_name ∈ styles then
      freshPara dna.subheading_style_name content
    else
      let q := freshPara dna.body_style_name content
      match q.runs with
      | [] => q
      | r :: rest => { q with runs := { r with bold := some true } :: rest }
  match p.runs with
  | [] => p
  | r :: rest => { p with runs := applySubheadingFonts dna r :: rest }

def applyBulletFonts (dna : TemplateDNA) (r : Run) : Run :=
  let r :=
    if optStrTruthy dna.bullet_font_name then { r with fontName := dna.bullet_font_name }
    else if optStrTruthy dna.body_font_name then { r with fontName := dna.body_font_name }
    else r
  if optNatTruthy dna.bullet_font_size then { r with sizePt := dna.bullet_font_size }
  else if optNatTruthy dna.body_font_size then { r with sizePt := dna.body_font_size }
  else r

/-- A `bullet` body item: the content is cleaned of residual markers,
then the bullet style is used when present, else the body style with a
manually inserted bullet glyph. -/
def emitBulletPara (styles : List String) (dna : TemplateDNA) (content : String) : Para :=
  let cleaned := clean_bullet_text content
  let p :=
    if dna.bullet_style_name ∈ styles then freshPara dna.bullet_style_name cleaned
    else ⟨dna.body_style_name, [plainRun ("• " ++ cleaned)], false⟩
  match p.runs with
  | [] => p
  | r :: rest => { p with runs := applyBulletFonts dna r :: rest }

def applyBodyFonts (dna : TemplateDNA) (r : Run) : Run :=
  let r := if optStrTruthy dna.body_font_name then { r with fontName := dna.body_font_name } else r
  let r := if optNatTruthy dna.body_font_size then { r with sizePt := dna.body_font_size } else r
  let r := if dna.body_font_bold.isSome then { r with bold := dna.body_font_bold } else r
  if dna.body_font_italic.isSome then { r with italic := dna.body_font_italic } else r

/-- A `text` body item (also the default for unknown types). -/
def emitTextPara (dna : TemplateDNA) (content : String) : Para :=
  let p := freshPara dna.body_style_name content
  match p.runs with
  | [] => p
  | r :: rest => { p with runs := applyBodyFonts dna r :: rest }

def emitBodyPara (styles : List String) (dna : TemplateDNA) (it : BodyItem) : Para :=
  if it.type = "subheading" then emitSubheadingPara styles dna it.content
  else if it.type = "bullet" then emitBulletPara styles dna it.content
  else emitTextPara dna it.content

/-- The paragraphs emitted for one section's body: the body is
deduplicated, then each remaining item with nonempty content yields
exactly one paragraph. -/
def emitBodyParas (styles : List String) (dna : TemplateDNA) (body : List BodyItem) : List Para :=
  (dedupBody body).filterMap (fun it =>
    if it.content = "" then none else some (emitBodyPara styles dna it))

/-- All paragraphs emitted for one section: heading then body. -/
def emitSection (styles : List String) (dna : TemplateDNA) (sec : Section) : List Para :=
  emitHeadingPara dna sec.title :: emitBodyParas styles dna sec.body.toItems

/-- `doc.add_paragraph()`: the blank spacing paragraph between sections. -/
def spacerPara : Para := ⟨"Normal", [], false⟩

/-- All sections emitted in order, with a spacing paragraph between
consecutive sections (none after the last). -/
def emitAll (styles : List String) (dna : TemplateDNA) : List Section → List Para
  | [] => []
  | [s] => emitSection styles dna s
  | s :: rest => emitSection styles dna s ++ (spacerPara :: emitAll styles dna rest)

/-! ## Renderer: the DOCX render pipeline (renderer._render_docx_sections)

The document-tree surgery of the success path: update the safe zone,
delete every paragraph at or after `safe_zone_end_idx` (the reversed
removal loop nets out to keeping the prefix), then append the rebuilt
sections. -/

/-- `section_titles = [sec.get("title", ...) for ...]` for sections that
carry their `title` key. -/
def sectionTitles (sections : List Section) : List String :=
  sections.map Section.title

/-- `document_title = section_titles[0] if section_titles else "Document"`. -/
def documentTitleOf (sections : List Section) : String :=
  match sectionTitles sections with
  | [] => "Document"
  | t :: _ => t

def render_docx_paras (styles : List String) (doc : List Para)
    (dna : TemplateDNA) (sections : List Section) : List Para :=
  let updated := update_safe_zone doc dna.safe_zone_end_idx
    (sectionTitles sections) (documentTitleOf sections)
  updated.take dna.safe_zone_end_idx ++ emitAll styles dna sections

/-! ## Analyzer (analyzer._analyze_docx_sections) -/

/-- Scan for the first paragraph with nonempty text whose style name
contains `heading 1` case-insensitively (analyzer.py lines 123-135). -/
def findHeading1 : List (Nat × Para) → Option (Nat × Para)
  | [] => none
  | (i, p) :: rest =>
    if pyStrip p.text ≠ "" ∧ containsSub (pyLower p.style) "heading 1" then some (i, p)
    else findHeading1 rest

/-- From the heading, the first following nonempty paragraph (within the
next nine) that is neither a heading nor a TOC paragraph supplies the
body style (analyzer.py lines 154-177). -/
def findBodyPara (paras : List Para) (idx : Nat) : Option Para :=
  ((paras.drop (idx + 1)).take 9).find? (fun p =>
    pyStrip p.text ≠ "" ∧ ¬ containsSub (pyLower p.style) "heading" = true ∧
      ¬ containsSub (pyLower p.style) "toc" = true)

/-- `if first_run.font.size:` — a missing or zero size is falsy, so the
size attribute stays unset. -/
def sizeIfTruthy : Option Nat → Option Nat
  | some 0 => none
  | x => x

/-- Font attributes harvested from the first run of a paragraph
(analyzer.py lines 138-146 and 163-172); absent runs leave everything
unset. -/
def firstRunFonts (p : Para) : Option String × Option Nat × Option Bool × Option Bool × Option String :=
  match p.runs with
  | [] => (none, none, none, none, none)
  | r :: _ => (r.fontName, sizeIfTruthy r.sizePt, r.bold, r.italic, r.color)

/-- `_analyze_docx_sections` reduced to its Template-DNA output: when no
`Heading 1` paragraph exists the defaults survive, in particular
`safe_zone_end_idx = 0` and `first_content_section_idx = 0`; the
subheading and bullet roles always keep their pydantic defaults. -/
def analyze_docx_sections (paras : List Para) : TemplateDNA :=
  match findHeading1 paras.enum with
  | none =>
    ⟨"Heading 1", none, none, none, none,
     "Heading 2", none, none, none, none,
     "Normal", none, none, none, none, none,
     "List Bullet", none, none,
     0, 0⟩
  | some (idx, hp) =>
    let hf := firstRunFonts hp
    let (bodyStyle, bf) :=
      match findBodyPara paras idx with
      | none => ("Normal", ((none : Option String), (none : Option Nat),
          (none : Option Bool), (none : Option Bool), (none : Option String)))
      | some bp => (bp.style, firstRunFonts bp)
    ⟨hp.style, hf.1, hf.2.1, hf.2.2.2.2, hf.2.2.1,
     "Heading 2", none, none, none, none,
     bodyStyle, bf.1, bf.2.1, bf.2.2.2.2, bf.2.2.1, bf.2.2.2.1,
     "List Bullet", none, none,
     idx, idx⟩

/-! ## Exception-flow model

`PyExc` models the Python exceptions that can surface from the two
services.  `analyzer.py` imports only `ParsingError` and
`UnsupportedFileTypeError` from `app.core.exceptions` (lines 12-15); the
module-level names it binds are listed below, so evaluating the name
`AnalysisError` in its `except` clause (line 222) is a `NameError`. -/

inductive PyExc where
  | analysisError (msg : String)
  | renderingError (msg : String)
  | nameError (name : String)
deriving Repr, DecidableEq

/-- The names bound at module level in `analyzer.py` (imports, the
logger, the three pydantic models and the six functions), plus the
Python builtins relevant to exceptions. -/
def analyzerModuleNames : List String :=
  ["logging", "re", "Path", "Literal", "Any", "BaseModel",
   "ParsingError", "UnsupportedFileTypeError", "logger",
   "TemplateSection", "TemplateDNA", "TemplateAnalysis",
   "analyze_template", "_analyze_docx_sections", "_is_structural_paragraph",
   "_analyze_pptx_sections", "_analyze_pdf_sections", "get_section_descriptions",
   "Exception", "ValueError", "TypeError", "KeyError", "IndexError",
   "AttributeError", "RuntimeError"]

/-- Evaluating `raise Name(msg)`: when `Name` resolves in the module
scope the named exception is raised, otherwise the raise itself fails
with a `NameError` for that name. -/
def raiseByName (name : String) (mk : String → PyExc) (msg : String) : PyExc :=
  if name ∈ analyzerModuleNames then mk msg else .nameError name

/-- The `try/except` of `_analyze_docx_sections` (analyzer.py lines
99, 221-222): a successful traversal returns the Template DNA; any
exception reaches `raise AnalysisError(...)`, whose outcome depends on
whether `AnalysisError` is a resolvable name. -/
def analyze_docx_result (openResult : Except String (List Para)) :
    Except PyExc TemplateDNA :=
  match openResult with
  | .ok paras => .ok (analyze_docx_sections paras)
  | .error e =>
    .error (raiseByName "AnalysisError" PyExc.analysisError
      ("Failed to analyze DOCX sections: " ++ e))

/-- Exception flow of `_render_docx_sections` (renderer.py lines
303, 339-343, 528-530).  The four mutation phases are abstracted as
possibly-failing collaborators.  `_update_safe_zone` is invoked inside
its own `try/except Exception` that only logs a warning, so its outcome
is discarded; the deletion, rebuild and save phases run directly inside
the outer `try`, whose handler wraps any exception in `RenderingError`. -/
def render_docx_control (fm del reb sav : Except String Unit) : Except PyExc Unit :=
  let _ := fm
  match del with
  | .error e => .error (.renderingError ("Failed to render DOCX: " ++ e))
  | .ok _ =>
    match reb with
    | .error e => .error (.renderingError ("Failed to render DOCX: " ++ e))
    | .ok _ =>
      match sav with
      | .error e => .error (.renderingError ("Failed to render DOCX: " ++ e))
      | .ok _ => .ok ()

/-! ## Specification-side view of the body dedup (for claim C3)

`specDedup` states the specified behaviour in the spec's own terms: one
item per first-seen distinct nonempty normalized content, the chosen
representative being the first bullet-typed duplicate, else the first
subheading-typed one, else the first arrival. -/

def uniqueNormsGo : List BodyItem → List String → List String
  | [], _ => []
  | it :: rest, seen =>
    if it.norm = "" ∨ it.norm ∈ seen then uniqueNormsGo rest seen
    else it.norm :: uniqueNormsGo rest (it.norm :: seen)

/-- The distinct nonempty normalized contents of a body, in first-seen
order. -/
def uniqueNorms (body : List BodyItem) : List String :=
  uniqueNormsGo body []

/-- The representative of a duplicate group: first bullet, else first
subheading, else the group's first arrival. -/
def pickBestGrp (g : List BodyItem) : BodyItem :=
  pickBest (g.headD ⟨"text", ""⟩) g

def specDedup (body : List BodyItem) : List BodyItem :=
  (uniqueNorms body).map (fun n => pickBestGrp (contentGroups body n))

/-! ## Touched-index sets of the safe-zone update (for claim C1) -/

/-- The (at most one) paragraph index whose text the cover pass
rewrites. -/
def coverTouchedIdx (doc : List Para) (szEnd : Nat) (titles : List String)
    (dt : String) : List Nat :=
  if effectiveTitle dt titles = "" then []
  else
    match detect_cover_title doc szEnd with
    | some i => [i]
    | none => []

/-- The paragraph indices whose text the TOC pass rewrites: the
detected entries (on the cover-updated document) paired with available
titles. -/
def tocTouchedIdx (doc : List Para) (szEnd : Nat) (titles : List String)
    (dt : String) : List Nat :=
  ((tocDetect (coverPass doc szEnd (effectiveTitle dt titles)) szEnd).zip titles).map
    Prod.fst

/-! ## Claim-side TOC trailing formula (for claim C7)

The claim's wording preserves the original text from the first
multi-dot run or tab onward, with no restriction on the tab's
position; the code ignores a tab at character index 0. -/

def claimTocSplitIdx (cs : List Char) : Nat :=
  let s0 := cs.length
  let s1 := match dotRunStart cs with
    | some d => min s0 d
    | none => s0
  match tabIndex cs with
  | some t => min s1 t
  | none => s1

def claimTocNewText (ordinal : Nat) (newTitle : String) (origText : String) : String :=
  let cs := origText.data
  let trailing := String.mk (cs.drop (claimTocSplitIdx cs))
  toString ordinal ++ ". " ++ stripLeadingNumbering newTitle ++ trailing

/-! ## Claim-side pre-join (for claim C4) -/

/-- `A'` from the claim: `A` with its last section's body concatenated
with `B`'s first section's body, followed by `B`'s remaining sections. -/
def preJoin (A B : List Section) : List Section :=
  match A.getLast?, B with
  | some last, first :: rest =>
    A.dropLast ++ [⟨last.title, mergeBodies last.body first.body⟩] ++ rest
  | _, _ => A ++ B

/-! ## Concrete documents used by witnesses and counterexamples -/

/-- A two-paragraph safe zone: a TOC heading and one dotted TOC entry. -/
def tocDemoDoc : List Para :=
  [⟨"Normal", [plainRun "Table of Contents"], false⟩,
   ⟨"Normal", [plainRun "1. Introduction ..... 5"], false⟩]

/-- A safe zone whose TOC entry's raw text begins with a tab character. -/
def tocTabDoc : List Para :=
  [⟨"Normal", [plainRun "Contents"], false⟩,
   ⟨"Normal", [plainRun "\t3"], false⟩]

/-- A small template: a cover title, a TOC with one entry, a heading
and a body paragraph. -/
def frameDemoDoc : List Para :=
  [⟨"Title", [⟨"Old Cover Title", none, some 28, some true, none, none⟩], true⟩,
   ⟨"Normal", [plainRun "Table of Contents"], false⟩,
   ⟨"Normal", [plainRun "1. Old Section ..... 2"], false⟩,
   ⟨"Heading 1", [plainRun "Old Section"], false⟩,
   ⟨"Normal", [plainRun "old body text"], false⟩]

def frameDemoDna : TemplateDNA :=
  ⟨"Heading 1", none, none, none, none,
   "Heading 2", none, none, none, none,
   "Normal", none, none, none, none, none,
   "List Bullet", none, none,
   3, 3⟩

def frameDemoSections : List Section :=
  [⟨"Overview", .items [⟨"text", "fresh body"⟩]⟩,
   ⟨"Details", .items [⟨"bullet", "- point"⟩]⟩]

/-! ## Lemmas about the body dedup -/

theorem normContent_of_strip_empty (c : String) (h : pyStrip c = "") :
    normContent c = "" := by
  unfold normContent
  rw [h]
  rfl

theorem strip_ne_of_norm_ne (c : String) (h : normContent c ≠ "") :
    pyStrip c ≠ "" :=
  fun hs => h (normContent_of_strip_empty c hs)

theorem contentGroups_append (b1 b2 : List BodyItem) (n : String) :
    contentGroups (b1 ++ b2) n = contentGroups b1 n ++ contentGroups b2 n := by
  simp [contentGroups, List.filter_append]

theorem contentGroups_nil_of_not_mem (pre : List BodyItem) (n : String)
    (h : n ∉ pre.map BodyItem.norm) : contentGroups pre n = [] := by
  rw [contentGroups, List.filter_eq_nil_iff]
  intro it hit
  simp only [decide_eq_true_eq, not_and]
  intro _ hnorm
  exact h (List.mem_map.mpr ⟨it, hit, hnorm⟩)

theorem contentGroups_cons_self (it : BodyItem) (rest : List BodyItem)
    (h : it.norm ≠ "") :
    contentGroups (it :: rest) it.norm = it :: contentGroups rest it.norm := by
  rw [contentGroups, contentGroups, List.filter_cons, if_pos]
  simp only [decide_eq_true_eq]
  exact ⟨strip_ne_of_norm_ne it.content h, by trivial⟩

theorem mem_of_mem_contentGroups {l : List BodyItem} {n : String} {it : BodyItem}
    (h : it ∈ contentGroups l n) : it ∈ l :=
  List.mem_of_mem_filter h

theorem strip_ne_of_mem_contentGroups {l : List BodyItem} {n : String} {it : BodyItem}
    (h : it ∈ contentGroups l n) : pyStrip it.content ≠ "" := by
  have := List.of_mem_filter h
  simp only [decide_eq_true_eq] at this
  exact this.1

theorem norm_of_mem_contentGroups {l : List BodyItem} {n : String} {it : BodyItem}
    (h : it ∈ contentGroups l n) : it.norm = n := by
  have := List.of_mem_filter h
  simp only [decide_eq_true_eq] at this
  exact this.2

theorem pickBest_cases (c : BodyItem) (g : List BodyItem) :
    pickBest c g = c ∨ pickBest c g ∈ g := by
  unfold pickBest
  cases hb : g.find? (fun x => x.type = "bullet") with
  | some b => exact Or.inr (List.mem_of_find?_eq_some hb)
  | none =>
    cases hs : g.find? (fun x => x.type = "subheading") with
    | some sh => exact Or.inr (List.mem_of_find?_eq_some hs)
    | none => exact Or.inl rfl

theorem pickBestGrp_mem (g : List BodyItem) (hg : g ≠ []) : pickBestGrp g ∈ g := by
  rcases pickBest_cases (g.headD ⟨"text", ""⟩) g with h | h
  · rw [pickBestGrp, h]
    match g, hg with
    | x :: xs, _ => exact List.mem_cons_self x xs
  · exact h

/-- The selection pass computes the specification-side dedup: the key
invariant is that `seen` holds exactly the nonempty normalized contents
of the already-processed prefix, so a first-seen item is the head of
its own content group. -/
theorem dedupBodyGo_eq_spec (whole : List BodyItem) :
    ∀ (l pre : List BodyItem) (seen : List String),
      whole = pre ++ l →
      (∀ n, n ∈ seen ↔ (n ≠ "" ∧ n ∈ pre.map BodyItem.norm)) →
      dedupBodyGo whole l seen
        = (uniqueNormsGo l seen).map (fun n => pickBestGrp (contentGroups whole n)) := by
  intro l
  induction l with
  | nil => intro pre seen _ _; rfl
  | cons it rest ih =>
    intro pre seen hw hs
    by_cases hn : it.norm = "" ∨ it.norm ∈ seen
    · rw [dedupBodyGo, uniqueNormsGo, if_pos hn, if_pos hn]
      refine ih (pre ++ [it]) seen (by rw [hw]; simp) (fun n => ?_)
      rw [hs n]
      constructor
      · rintro ⟨h1, h2⟩
        exact ⟨h1, by simp only [List.map_append, List.mem_append]; exact Or.inl h2⟩
      · rintro ⟨h1, h2⟩
        refine ⟨h1, ?_⟩
        simp only [List.map_append, List.mem_append, List.map_cons, List.map_nil,
          List.mem_singleton] at h2
        rcases h2 with h2 | h2
        · exact h2
        · subst h2
          rcases hn with hn | hn
          · exact absurd hn h1
          · exact ((hs it.norm).mp hn).2
    · push_neg at hn
      obtain ⟨hne, hnotseen⟩ := hn
      have hcond : ¬ (it.norm = "" ∨ it.norm ∈ seen) := by
        rintro (h | h)
        · exact hne h
        · exact hnotseen h
      rw [dedupBodyGo, uniqueNormsGo, if_neg hcond, if_neg hcond]
      have hpre : it.norm ∉ pre.map BodyItem.norm := fun hm =>
        hnotseen ((hs it.norm).mpr ⟨hne, hm⟩)
      have hgroup : contentGroups whole it.norm = it :: contentGroups rest it.norm := by
        rw [hw, contentGroups_append, contentGroups_nil_of_not_mem pre it.norm hpre,
          List.nil_append, contentGroups_cons_self it rest hne]
      have hhead : pickBest it (contentGroups whole it.norm)
          = pickBestGrp (contentGroups whole it.norm) := by
        rw [pickBestGrp, hgroup]
        rfl
      rw [List.map_cons, hhead]
      congr 1
      refine ih (pre ++ [it]) (it.norm :: seen) (by rw [hw]; simp) (fun n => ?_)
      constructor
      · intro hmem
        rcases List.mem_cons.mp hmem with h | h
        · subst h
          exact ⟨hne, by simp⟩
        · obtain ⟨h1, h2⟩ := (hs n).mp h
          exact ⟨h1, by simp only [List.map_append, List.mem_append]; exact Or.inl h2⟩
      · rintro ⟨h1, h2⟩
        simp only [List.map_append, List.mem_append, List.map_cons, List.map_nil,
          List.mem_singleton] at h2
        rcases h2 with h2 | h2
        · exact List.mem_cons.mpr (Or.inr ((hs n).mpr ⟨h1, h2⟩))
        · exact List.mem_cons.mpr (Or.inl h2)

theorem dedupBody_eq_spec (body : List BodyItem) : dedupBody body = specDedup body :=
  dedupBodyGo_eq_spec body body [] [] (by simp)
    (fun n => by simp)

theorem uniqueNormsGo_ne_empty :
    ∀ (l : List BodyItem) (seen : List String) (n : String),
      n ∈ uniqueNormsGo l seen → n ≠ "" := by
  intro l
  induction l with
  | nil => intro seen n h; cases h
  | cons it rest ih =>
    intro seen n h
    rw [uniqueNormsGo] at h
    split at h
    · exact ih _ n h
    · rcases List.mem_cons.mp h with h | h
      · subst h
        rename_i hcond
        exact fun he => hcond (Or.inl he)
      · exact ih _ n h

theorem uniqueNormsGo_exists_item :
    ∀ (l : List BodyItem) (seen : List String) (n : String),
      n ∈ uniqueNormsGo l seen → ∃ it ∈ l, it.norm = n := by
  intro l
  induction l with
  | nil => intro seen n h; cases h
  | cons it rest ih =>
    intro seen n h
    rw [uniqueNormsGo] at h
    split at h
    · obtain ⟨x, hx, hn⟩ := ih _ n h
      exact ⟨x, List.mem_cons.mpr (Or.inr hx), hn⟩
    · rcases List.mem_cons.mp h with h | h
      · exact ⟨it, List.mem_cons_self it rest, h.symm⟩
      · obtain ⟨x, hx, hn⟩ := ih _ n h
        exact ⟨x, List.mem_cons.mpr (Or.inr hx), hn⟩

theorem contentGroups_ne_nil_of_uniqueNorm (body : List BodyItem) (n : String)
    (h : n ∈ uniqueNorms body) : contentGroups body n ≠ [] := by
  obtain ⟨it, hit, hnorm⟩ := uniqueNormsGo_exists_item body [] n h
  have hne : n ≠ "" := uniqueNormsGo_ne_empty body [] n h
  intro hnil
  have hitne : it.norm ≠ "" := by rw [hnorm]; exact hne
  have : it ∈ contentGroups body n := by
    rw [contentGroups, List.mem_filter]
    refine ⟨hit, ?_⟩
    simp only [decide_eq_true_eq]
    exact ⟨strip_ne_of_norm_ne it.content hitne, hnorm⟩
  rw [hnil] at this
  cases this

theorem dedupBody_content_ne (body : List BodyItem) :
    ∀ it ∈ dedupBody body, it.content ≠ "" := by
  intro it hit
  rw [dedupBody_eq_spec] at hit
  obtain ⟨n, hn, heq⟩ := List.mem_map.mp hit
  have hne := contentGroups_ne_nil_of_uniqueNorm body n hn
  have hmem := pickBestGrp_mem _ hne
  rw [heq] at hmem
  have := strip_ne_of_mem_contentGroups hmem
  intro hc
  exact this (by rw [hc]; rfl)

theorem dedupBody_norms (body : List BodyItem) :
    (dedupBody body).map BodyItem.norm = uniqueNorms body := by
  rw [dedupBody_eq_spec, specDedup, List.map_map]
  have : ∀ n ∈ uniqueNorms body,
      (BodyItem.norm ∘ fun n => pickBestGrp (contentGroups body n)) n = id n := by
    intro n hn
    have hne := contentGroups_ne_nil_of_uniqueNorm body n hn
    exact norm_of_mem_contentGroups (pickBestGrp_mem _ hne)
  rw [List.map_congr_left this, List.map_id]

theorem filterMap_emit_length (f : BodyItem → Para) :
    ∀ (l : List BodyItem), (∀ it ∈ l, it.content ≠ "") →
      (l.filterMap (fun it =>
        if it.content = "" then none else some (f it))).length = l.length := by
  intro l
  induction l with
  | nil => intro _; rfl
  | cons it rest ih =>
    intro h
    rw [List.filterMap_cons]
    rw [if_neg (h it (List.mem_cons_self it rest))]
    simp only [List.length_cons]
    rw [ih (fun x hx => h x (List.mem_cons.mpr (Or.inr hx)))]

/-- C3: the Body Rebuilder's per-section dedup equals the specified
selection — one item per first-seen distinct nonempty normalized
content, a bullet-typed duplicate winning over subheading over text
regardless of arrival order — every surviving item has nonempty
content, the emission loop produces exactly one paragraph per
surviving item, and the spec's concrete scenario holds: a text item
`"Launched product"` plus a bullet item `"- Launched product"` yield
one bullet item whose cleaned text is `"Launched product"`. -/
theorem c3_body_dedup_priority (body : List BodyItem) :
    dedupBody body = specDedup body ∧
    (dedupBody body).map BodyItem.norm = uniqueNorms body ∧
    (∀ it ∈ dedupBody body, it.content ≠ "") ∧
    (∀ styles dna,
      (emitBodyParas styles dna body).length = (uniqueNorms body).length) ∧
    dedupBody [⟨"text", "Launched product"⟩, ⟨"bullet", "- Launched product"⟩]
      = [⟨"bullet", "- Launched product"⟩] ∧
    clean_bullet_text "- Launched product" = "Launched product" := by
  refine ⟨dedupBody_eq_spec body, dedupBody_norms body, dedupBody_content_ne body,
    fun styles dna => ?_, rfl, rfl⟩
  rw [emitBodyParas, filterMap_emit_length _ _ (dedupBody_content_ne body)]
  have := congrArg List.length (dedupBody_norms body)
  simpa using this

/-! # Theorems -/

/-- C10: when `_merge_section_mappings` is given exactly one
chunk-result list it returns that list unchanged, so duplicate-titled
sections produced within a single chunk — such as `"Experience"` and
`" experience "`, whose normalized titles coincide — survive unmerged
into the result consumed by rendering. -/
theorem c10_single_chunk_passthrough :
    (∀ l : List Section, merge_section_mappings [l] = l) ∧
    merge_section_mappings
        [[⟨"Experience", .items [⟨"text", "a"⟩]⟩, ⟨" experience ", .items [⟨"text", "b"⟩]⟩]]
      = [⟨"Experience", .items [⟨"text", "a"⟩]⟩, ⟨" experience ", .items [⟨"text", "b"⟩]⟩] ∧
    normTitle "Experience" = normTitle " experience " :=
  ⟨fun _ => rfl, rfl, rfl⟩

/-- C5: the chunk merge is idempotent when the merged flat section list
is re-submitted as a single chunk-result list: a one-element outer list
takes the early-return branch, so `merge [merge x] = merge x` for every
input `x`. -/
theorem c5_merge_idempotent (x : List (List Section)) :
    merge_section_mappings [merge_section_mappings x] = merge_section_mappings x :=
  rfl

/-- C2 counterexample: a single chunk-result list containing two
sections with the same normalized title is returned with both sections
still present, so the output of `_merge_section_mappings` is not always
free of duplicated normalized titles. -/
theorem c2_counterexample :
    ((merge_section_mappings
        [[⟨"Experience", .items []⟩, ⟨" experience ", .items []⟩]]).get? 0).map
        (fun s => normTitle s.title) = some "experience" ∧
    ((merge_section_mappings
        [[⟨"Experience", .items []⟩, ⟨" experience ", .items []⟩]]).get? 1).map
        (fun s => normTitle s.title) = some "experience" :=
  ⟨rfl, rfl⟩

/-- C9 (code bug): `analyzer.py` never imports `AnalysisError`, so the
`except` clause of `_analyze_docx_sections` raises `NameError` for any
template that cannot be opened or traversed, not the `AnalysisError`
the specification promises. -/
theorem c9_analysis_failure_raises_name_error :
    (∀ e, analyze_docx_result (.error e) = .error (.nameError "AnalysisError")) ∧
    "AnalysisError" ∉ analyzerModuleNames ∧
    (∀ msg, (PyExc.nameError "AnalysisError") ≠ PyExc.analysisError msg) := by
  refine ⟨fun e => ?_, by decide, fun msg h => by cases h⟩
  simp only [analyze_docx_result, raiseByName]
  rw [if_neg (by decide)]

/-- C8 counterexample: an exception raised inside the front-matter
update (`_update_safe_zone`) is caught by the renderer's inner
`try/except`, which only logs it; when the remaining phases succeed the
render completes normally instead of surfacing a `RenderingError`. -/
theorem c8_counterexample :
    render_docx_control (.error "front matter failure") (.ok ()) (.ok ()) (.ok ())
      = .ok () :=
  rfl

/-- C8 (amended): the render's outcome never depends on the
front-matter update's outcome; an exception during old-paragraph
deletion, body rebuild, or save aborts the render and surfaces as a
`RenderingError`; the render returns a document exactly when all three
of those phases succeed. -/
theorem c8_amended_error_policy (fm fm2 del reb sav : Except String Unit) :
    render_docx_control fm del reb sav = render_docx_control fm2 del reb sav ∧
    (∀ e, del = .error e →
      render_docx_control fm del reb sav
        = .error (.renderingError ("Failed to render DOCX: " ++ e))) ∧
    (∀ e, del = .ok () → reb = .error e →
      render_docx_control fm del reb sav
        = .error (.renderingError ("Failed to render DOCX: " ++ e))) ∧
    (∀ e, del = .ok () → reb = .ok () → sav = .error e →
      render_docx_control fm del reb sav
        = .error (.renderingError ("Failed to render DOCX: " ++ e))) ∧
    (render_docx_control fm del reb sav = .ok () ↔
      del = .ok () ∧ reb = .ok () ∧ sav = .ok ()) := by
  cases del with
  | error e => simp [render_docx_control]
  | ok u =>
    cases u
    cases reb with
    | error e => simp [render_docx_control]
    | ok u =>
      cases u
      cases sav with
      | error e => simp [render_docx_control]
      | ok u => cases u; simp [render_docx_control]

/-- C8 witness: a failing deletion phase surfaces as a
`RenderingError`. -/
theorem c8_amended_error_policy_witness :
    render_docx_control (.ok ()) (.error "disk full") (.ok ()) (.ok ())
      = .error (.renderingError ("Failed to render DOCX: " ++ "disk full")) :=
  (c8_amended_error_policy (.ok ()) (.ok ()) (.error "disk full") (.ok ()) (.ok ())).2.1
    "disk full" rfl

/-! ## Frame lemmas: point mutation -/

theorem modifyAt_length (l : List α) : ∀ (i : Nat) (f : α → α),
    (modifyAt l i f).length = l.length := by
  induction l with
  | nil => intro i f; rfl
  | cons x xs ih =>
    intro i f
    cases i with
    | zero => rfl
    | succ n => simp [modifyAt, ih]

theorem modifyAt_get?_ne (l : List α) : ∀ (i j : Nat) (f : α → α), j ≠ i →
    (modifyAt l i f).get? j = l.get? j := by
  induction l with
  | nil => intro i j f _; rfl
  | cons x xs ih =>
    intro i j f h
    cases i with
    | zero =>
      cases j with
      | zero => exact absurd rfl h
      | succ m => rfl
    | succ n =>
      cases j with
      | zero => rfl
      | succ m =>
        simp only [modifyAt, List.get?_cons_succ]
        exact ih n m f (fun he => h (by rw [he]))

theorem modifyAt_get?_eq (l : List α) : ∀ (i : Nat) (f : α → α),
    (modifyAt l i f).get? i = (l.get? i).map f := by
  induction l with
  | nil => intro i f; cases i <;> rfl
  | cons x xs ih =>
    intro i f
    cases i with
    | zero => rfl
    | succ n => simpa [modifyAt] using ih n f

theorem rewriteRunsWith_style (t : String) (p : Para) :
    (rewriteRunsWith t p).style = p.style := by
  rcases p with ⟨st, runs, c⟩
  cases runs <;> rfl

theorem rewriteRunsWith_centered (t : String) (p : Para) :
    (rewriteRunsWith t p).centered = p.centered := by
  rcases p with ⟨st, runs, c⟩
  cases runs <;> rfl

theorem modifyAt_map_field {β : Type} (g : Para → β) (f : Para → Para)
    (hf : ∀ p, g (f p) = g p) (l : List Para) (i j : Nat) :
    ((modifyAt l i f).get? j).map g = (l.get? j).map g := by
  by_cases h : j = i
  · subst h
    rw [modifyAt_get?_eq]
    cases l.get? j <;> simp [hf]
  · rw [modifyAt_get?_ne l i j f h]

/-! ## Frame lemmas: the TOC rewrite pass -/

theorem tocRewriteGo_length : ∀ (pairs : List (Nat × String)) (doc : List Para) (i : Nat),
    (tocRewriteGo i doc pairs).length = doc.length := by
  intro pairs
  induction pairs with
  | nil => intro doc i; rfl
  | cons pr rest ih =>
    intro doc i
    rcases pr with ⟨pidx, title⟩
    rw [tocRewriteGo, ih, modifyAt_length]

theorem tocRewriteGo_get?_not_mem :
    ∀ (pairs : List (Nat × String)) (doc : List Para) (i j : Nat),
      j ∉ pairs.map Prod.fst →
      (tocRewriteGo i doc pairs).get? j = doc.get? j := by
  intro pairs
  induction pairs with
  | nil => intro doc i j _; rfl
  | cons pr rest ih =>
    intro doc i j h
    rcases pr with ⟨pidx, title⟩
    simp only [List.map_cons, List.mem_cons, not_or] at h
    rw [tocRewriteGo, ih _ _ _ h.2, modifyAt_get?_ne _ _ _ _ h.1]

theorem tocRewriteGo_map_field {β : Type} (g : Para → β)
    (hg : ∀ t p, g (rewriteRunsWith t p) = g p) :
    ∀ (pairs : List (Nat × String)) (doc : List Para) (i j : Nat),
      ((tocRewriteGo i doc pairs).get? j).map g = (doc.get? j).map g := by
  intro pairs
  induction pairs with
  | nil => intro doc i j; rfl
  | cons pr rest ih =>
    intro doc i j
    rcases pr with ⟨pidx, title⟩
    rw [tocRewriteGo, ih]
    exact modifyAt_map_field g _ (fun p => hg _ p) doc pidx j

/-- The exact effect of the rewrite pass on the `k`-th pair, given that
the entry indices are strictly increasing: the paragraph at that index
is rewritten once, from its original text, with the right ordinal. -/
theorem tocRewriteGo_spec :
    ∀ (pairs : List (Nat × String)) (doc : List Para) (i0 : Nat),
      List.Pairwise (fun a b => a.1 < b.1) pairs →
      ∀ (k pidx : Nat) (title : String), pairs.get? k = some (pidx, title) →
        (tocRewriteGo i0 doc pairs).get? pidx
          = (doc.get? pidx).map
              (fun p => rewriteRunsWith (tocNewText (i0 + k + 1) title p.text) p) := by
  intro pairs
  induction pairs with
  | nil => intro doc i0 _ k pidx title h; cases h
  | cons pr rest ih =>
    intro doc i0 hpw k pidx title hk
    rcases pr with ⟨p0, t0⟩
    obtain ⟨hall, hrest⟩ := List.pairwise_cons.mp hpw
    cases k with
    | zero =>
      simp only [List.get?_cons_zero] at hk
      injection hk with hk
      injection hk with h1 h2
      subst h1
      subst h2
      have hnot : p0 ∉ rest.map Prod.fst := by
        intro hmem
        obtain ⟨b, hb, hfst⟩ := List.mem_map.mp hmem
        exact absurd (hfst ▸ hall b hb) (lt_irrefl p0)
      rw [tocRewriteGo, tocRewriteGo_get?_not_mem rest _ _ _ hnot, modifyAt_get?_eq]
    | succ k' =>
      simp only [List.get?_cons_succ] at hk
      have hmem := List.get?_mem hk
      have hlt : p0 < pidx := hall _ hmem
      rw [tocRewriteGo,
        ih _ (i0 + 1) hrest k' pidx title hk,
        modifyAt_get?_ne _ _ _ _ (Nat.ne_of_gt hlt)]
      have harith : i0 + 1 + k' + 1 = i0 + (k' + 1) + 1 := by omega
      rw [harith]

/-! ## Frame lemmas: the TOC scan -/

theorem tocScanStep_snd (st : Int × List Nat) (ip : Nat × Para) :
    (tocScanStep st ip).2 = st.2 ∨ (tocScanStep st ip).2 = st.2 ++ [ip.1] := by
  unfold tocScanStep
  split_ifs <;> simp

theorem tocScan_fold : ∀ (ps : List Para) (k : Nat) (st : Int × List Nat),
    (∀ x ∈ st.2, x < k) → List.Pairwise (· < ·) st.2 →
    (∀ x ∈ (List.foldl tocScanStep st (List.enumFrom k ps)).2, x < k + ps.length) ∧
    List.Pairwise (· < ·) (List.foldl tocScanStep st (List.enumFrom k ps)).2 := by
  intro ps
  induction ps with
  | nil =>
    intro k st hb hp
    exact ⟨fun x hx => lt_of_lt_of_le (hb x hx) (Nat.le_add_right _ _), hp⟩
  | cons p ps ih =>
    intro k st hb hp
    simp only [List.enumFrom, List.foldl_cons]
    have hsnd := tocScanStep_snd st (k, p)
    have hb' : ∀ x ∈ (tocScanStep st (k, p)).2, x < k + 1 := by
      rcases hsnd with h | h <;> rw [h]
      · intro x hx; exact Nat.lt_succ_of_lt (hb x hx)
      · intro x hx
        rcases List.mem_append.mp hx with hx | hx
        · exact Nat.lt_succ_of_lt (hb x hx)
        · simp only [List.mem_singleton] at hx
          omega
    have hp' : List.Pairwise (· < ·) (tocScanStep st (k, p)).2 := by
      rcases hsnd with h | h <;> rw [h]
      · exact hp
      · rw [List.pairwise_append]
        refine ⟨hp, List.pairwise_singleton _ _, fun a ha b hbm => ?_⟩
        simp only [List.mem_singleton] at hbm
        have := hb a ha
        omega
    have hres := ih (k + 1) (tocScanStep st (k, p)) hb' hp'
    refine ⟨fun x hx => ?_, hres.2⟩
    have := hres.1 x hx
    simp only [List.length_cons]
    omega

theorem tocDetect_lt (doc : List Para) (sz : Nat) :
    ∀ x ∈ tocDetect doc sz, x < sz := by
  intro x hx
  have hres := (tocScan_fold (doc.take sz) 0 (-1, [])
    (fun y hy => by cases hy) List.Pairwise.nil).1 x hx
  rw [List.length_take] at hres
  exact lt_of_lt_of_le (by simpa using hres) inf_le_left

theorem tocDetect_sorted (doc : List Para) (sz : Nat) :
    List.Pairwise (· < ·) (tocDetect doc sz) :=
  (tocScan_fold (doc.take sz) 0 (-1, [])
    (fun y hy => by cases hy) List.Pairwise.nil).2

/-! ## Frame lemmas: cover-title detection -/

theorem foldl_best_mem : ∀ (rest : List (Int × Nat)) (c : Int × Nat),
    rest.foldl (fun b x => if b.1 < x.1 then x else b) c ∈ c :: rest := by
  intro rest
  induction rest with
  | nil => intro c; exact List.mem_cons_self c []
  | cons x xs ih =>
    intro c
    rw [List.foldl_cons]
    rcases List.mem_cons.mp (ih (if c.1 < x.1 then x else c)) with h | h
    · rw [h]
      split_ifs <;> simp [List.mem_cons]
    · simp [List.mem_cons, Or.inr (Or.inr h)]

theorem coverCandidates_lt (doc : List Para) (sz : Nat) :
    ∀ sc ∈ coverCandidates doc sz, sc.2 < min 10 sz := by
  intro sc hsc
  obtain ⟨ip, hip, heq⟩ := List.mem_filterMap.mp hsc
  by_cases hc : pyStrip ip.2.text = "" ∨ (pyStrip ip.2.text).length < 5
  · rw [if_pos hc] at heq; cases heq
  · rw [if_neg hc] at heq
    injection heq with heq
    rcases ip with ⟨i, p⟩
    have hb := (List.mem_enumFrom hip).2.1
    rw [List.length_take] at hb
    have hi : i < min 10 sz := lt_of_lt_of_le (by simpa using hb) inf_le_left
    rw [← heq]
    exact hi

theorem detect_cover_title_lt (doc : List Para) (sz i : Nat)
    (h : detect_cover_title doc sz = some i) : i < min 10 sz := by
  rw [detect_cover_title] at h
  cases hv : coverCandidates doc sz with
  | nil => rw [hv] at h; cases h
  | cons c rest =>
    rw [hv] at h
    dsimp only at h
    by_cases h20 : (20 : Int) < (rest.foldl (fun b x => if b.1 < x.1 then x else b) c).1
    · rw [if_pos h20] at h
      injection h with h
      have hmem : rest.foldl (fun b x => if b.1 < x.1 then x else b) c
          ∈ coverCandidates doc sz := by
        rw [hv]; exact foldl_best_mem rest c
      have := coverCandidates_lt doc sz _ hmem
      rw [h] at this
      exact this
    · rw [if_neg h20] at h; cases h

/-! ## Frame lemmas: the cover pass and the full safe-zone update -/

theorem coverPass_length (doc : List Para) (sz : Nat) (t : String) :
    (coverPass doc sz t).length = doc.length := by
  unfold coverPass
  split
  · rfl
  · cases hdet : detect_cover_title doc sz with
    | none => rfl
    | some i => exact modifyAt_length doc i _

theorem coverPass_untouched (doc : List Para) (sz : Nat) (titles : List String)
    (dt : String) (j : Nat) (h : j ∉ coverTouchedIdx doc sz titles dt) :
    (coverPass doc sz (effectiveTitle dt titles)).get? j = doc.get? j := by
  rw [coverTouchedIdx] at h
  unfold coverPass
  by_cases he : effectiveTitle dt titles = ""
  · rw [if_pos he]
  · rw [if_neg he] at h
    rw [if_neg he]
    cases hdet : detect_cover_title doc sz with
    | none => rfl
    | some i =>
      rw [hdet] at h
      simp only [List.mem_singleton] at h
      exact modifyAt_get?_ne _ _ _ _ h

theorem coverPass_map_field {β : Type} (g : Para → β)
    (hg : ∀ t p, g (rewriteRunsWith t p) = g p)
    (doc : List Para) (sz : Nat) (t : String) (j : Nat) :
    ((coverPass doc sz t).get? j).map g = (doc.get? j).map g := by
  unfold coverPass
  split
  · rfl
  · cases hdet : detect_cover_title doc sz with
    | none => rfl
    | some i => exact modifyAt_map_field g _ (hg t) doc i j

theorem usz_length (doc : List Para) (sz : Nat) (titles : List String) (dt : String) :
    (update_safe_zone doc sz titles dt).length = doc.length := by
  unfold update_safe_zone tocRewrite
  rw [tocRewriteGo_length, coverPass_length]

theorem usz_untouched (doc : List Para) (sz : Nat) (titles : List String) (dt : String)
    (j : Nat) (hc : j ∉ coverTouchedIdx doc sz titles dt)
    (ht : j ∉ tocTouchedIdx doc sz titles dt) :
    (update_safe_zone doc sz titles dt).get? j = doc.get? j := by
  rw [tocTouchedIdx] at ht
  unfold update_safe_zone tocRewrite
  rw [tocRewriteGo_get?_not_mem _ _ _ _ ht]
  exact coverPass_untouched doc sz titles dt j hc

theorem usz_map_style (doc : List Para) (sz : Nat) (titles : List String) (dt : String)
    (j : Nat) :
    ((update_safe_zone doc sz titles dt).get? j).map Para.style
      = (doc.get? j).map Para.style := by
  unfold update_safe_zone tocRewrite
  rw [tocRewriteGo_map_field Para.style rewriteRunsWith_style]
  exact coverPass_map_field Para.style rewriteRunsWith_style doc sz _ j

theorem usz_map_centered (doc : List Para) (sz : Nat) (titles : List String) (dt : String)
    (j : Nat) :
    ((update_safe_zone doc sz titles dt).get? j).map Para.centered
      = (doc.get? j).map Para.centered := by
  unfold update_safe_zone tocRewrite
  rw [tocRewriteGo_map_field Para.centered rewriteRunsWith_centered]
  exact coverPass_map_field Para.centered rewriteRunsWith_centered doc sz _ j

theorem usz_touched_lt (doc : List Para) (sz : Nat) (titles : List String) (dt : String)
    (j : Nat)
    (h : j ∈ coverTouchedIdx doc sz titles dt ∨ j ∈ tocTouchedIdx doc sz titles dt) :
    j < sz := by
  rcases h with h | h
  · rw [coverTouchedIdx] at h
    by_cases he : effectiveTitle dt titles = ""
    · rw [if_pos he] at h; cases h
    · rw [if_neg he] at h
      cases hdet : detect_cover_title doc sz with
      | none => rw [hdet] at h; cases h
      | some i =>
        rw [hdet] at h
        simp only [List.mem_singleton] at h
        subst h
        exact lt_of_lt_of_le (detect_cover_title_lt doc sz j hdet) (min_le_right _ _)
  · rw [tocTouchedIdx] at h
    obtain ⟨pr, hpr, hfst⟩ := List.mem_map.mp h
    rcases pr with ⟨a, b⟩
    have := (List.of_mem_zip hpr).1
    subst hfst
    exact tocDetect_lt _ sz a this

/-! ## Zip and sortedness helpers -/

theorem zip_get?_some {α β : Type} : ∀ (l1 : List α) (l2 : List β) (i : Nat) (a : α) (b : β),
    l1.get? i = some a → l2.get? i = some b → (l1.zip l2).get? i = some (a, b) := by
  intro l1
  induction l1 with
  | nil => intro l2 i a b h _; cases h
  | cons x xs ih =>
    intro l2 i a b h1 h2
    cases l2 with
    | nil => cases h2
    | cons y ys =>
      cases i with
      | zero =>
        simp only [List.get?_cons_zero] at h1 h2 ⊢
        injection h1 with h1
        injection h2 with h2
        rw [h1, h2]
        rfl
      | succ n =>
        simp only [List.get?_cons_succ] at h1 h2 ⊢
        exact ih ys n a b h1 h2

theorem pairwise_zip_fst {β : Type} : ∀ (l1 : List Nat) (l2 : List β),
    List.Pairwise (· < ·) l1 →
    List.Pairwise (fun a b => a.1 < b.1) (l1.zip l2) := by
  intro l1
  induction l1 with
  | nil => intro l2 _; exact List.Pairwise.nil
  | cons x xs ih =>
    intro l2 hpw
    obtain ⟨hall, hxs⟩ := List.pairwise_cons.mp hpw
    cases l2 with
    | nil => exact List.Pairwise.nil
    | cons y ys =>
      rw [List.zip_cons_cons, List.pairwise_cons]
      refine ⟨fun pr hpr => ?_, ih ys hxs⟩
      rcases pr with ⟨a, b⟩
      exact hall a (List.of_mem_zip hpr).1

theorem map_fst_zip_take {α β : Type} : ∀ (l1 : List α) (l2 : List β),
    (l1.zip l2).map Prod.fst = l1.take l2.length := by
  intro l1
  induction l1 with
  | nil => intro l2; simp
  | cons x xs ih =>
    intro l2
    cases l2 with
    | nil => simp
    | cons y ys => simp [ih]

theorem sorted_not_mem_take : ∀ (l : List Nat) (i m x : Nat),
    List.Pairwise (· < ·) l → l.get? i = some x → m ≤ i → x ∉ l.take m := by
  intro l
  induction l with
  | nil => intro i m x _ h _; cases h
  | cons y ys ih =>
    intro i m x hpw hget hmi
    obtain ⟨hall, hys⟩ := List.pairwise_cons.mp hpw
    cases m with
    | zero => simp
    | succ m' =>
      cases i with
      | zero => omega
      | succ i' =>
        simp only [List.get?_cons_succ] at hget
        rw [List.take_succ_cons]
        intro hmem
        rcases List.mem_cons.mp hmem with hmem | hmem
        · have hxmem : x ∈ ys := List.get?_mem hget
          have := hall x hxmem
          omega
        · exact ih i' m' x hys hget (by omega) hmem

/-! # Claims C1 and C7 -/

/-- C1: the render's surgery never inserts into, deletes from, or
reorders the safe zone.  The safe-zone update preserves the paragraph
count, every paragraph keeps its style name and alignment (text-only
surgery), only the detected cover-title paragraph and the rewritten TOC
entries change at all, every touched index lies strictly inside the
safe zone, and the rendered document is exactly the updated safe-zone
prefix (deletion starts at `safe_zone_end_idx`) followed by the freshly
emitted sections. -/
theorem c1_safe_zone_frame (styles : List String) (doc : List Para)
    (dna : TemplateDNA) (sections : List Section)
    (h : dna.safe_zone_end_idx ≤ doc.length) (_hs : sections ≠ []) :
    (update_safe_zone doc dna.safe_zone_end_idx (sectionTitles sections)
        (documentTitleOf sections)).length = doc.length ∧
    (∀ j, ((update_safe_zone doc dna.safe_zone_end_idx (sectionTitles sections)
        (documentTitleOf sections)).get? j).map Para.style
      = (doc.get? j).map Para.style) ∧
    (∀ j, ((update_safe_zone doc dna.safe_zone_end_idx (sectionTitles sections)
        (documentTitleOf sections)).get? j).map Para.centered
      = (doc.get? j).map Para.centered) ∧
    (∀ j, j ∉ coverTouchedIdx doc dna.safe_zone_end_idx (sectionTitles sections)
            (documentTitleOf sections) →
          j ∉ tocTouchedIdx doc dna.safe_zone_end_idx (sectionTitles sections)
            (documentTitleOf sections) →
          (update_safe_zone doc dna.safe_zone_end_idx (sectionTitles sections)
            (documentTitleOf sections)).get? j = doc.get? j) ∧
    (∀ j, j ∈ coverTouchedIdx doc dna.safe_zone_end_idx (sectionTitles sections)
            (documentTitleOf sections) ∨
          j ∈ tocTouchedIdx doc dna.safe_zone_end_idx (sectionTitles sections)
            (documentTitleOf sections) →
          j < dna.safe_zone_end_idx) ∧
    (render_docx_paras styles doc dna sections).take dna.safe_zone_end_idx
      = (update_safe_zone doc dna.safe_zone_end_idx (sectionTitles sections)
          (documentTitleOf sections)).take dna.safe_zone_end_idx ∧
    (render_docx_paras styles doc dna sections).drop dna.safe_zone_end_idx
      = emitAll styles dna sections := by
  have hlen : ((update_safe_zone doc dna.safe_zone_end_idx (sectionTitles sections)
      (documentTitleOf sections)).take dna.safe_zone_end_idx).length
      = dna.safe_zone_end_idx := by
    rw [List.length_take, usz_length]
    exact min_eq_left h
  refine ⟨usz_length doc _ _ _,
    fun j => usz_map_style doc _ _ _ j,
    fun j => usz_map_centered doc _ _ _ j,
    fun j hc ht => usz_untouched doc _ _ _ j hc ht,
    fun j hj => usz_touched_lt doc _ _ _ j hj,
    ?_, ?_⟩
  · rw [render_docx_paras]
    exact List.take_left' hlen
  · rw [render_docx_paras]
    exact List.drop_left' hlen

/-- C1 witness: a concrete five-paragraph template with safe zone
`[0, 3)` and two fresh sections. -/
theorem c1_safe_zone_frame_witness :
    frameDemoDna.safe_zone_end_idx ≤ frameDemoDoc.length ∧
    frameDemoSections ≠ [] ∧
    (render_docx_paras ["Heading 1", "Normal"] frameDemoDoc frameDemoDna
        frameDemoSections).take frameDemoDna.safe_zone_end_idx
      = (update_safe_zone frameDemoDoc frameDemoDna.safe_zone_end_idx
          (sectionTitles frameDemoSections)
          (documentTitleOf frameDemoSections)).take frameDemoDna.safe_zone_end_idx :=
  ⟨by decide, by decide,
    (c1_safe_zone_frame ["Heading 1", "Normal"] frameDemoDoc frameDemoDna
      frameDemoSections (by decide) (by decide)).2.2.2.2.2.1⟩

/-- C7 (amended): with `n` detected TOC entries and `m` section titles,
entry `i` (for every `i < min n m`) is rewritten from its original text
to `"{i+1}. {title}{trailing}"` with the title's leading numbering
stripped, where `trailing` is the original entry's text from the first
multi-dot run or the first tab at a **positive** character index onward
(a tab at index 0 is ignored by the code); every detected entry with
index ≥ m is left completely untouched, and no paragraph outside the
detected entries is written, so titles with index ≥ n are not placed in
the TOC; all detected entries lie inside the scanned zone. -/
theorem c7_toc_rewrite (doc : List Para) (szEnd : Nat) (titles : List String) :
    (∀ (i pidx : Nat) (title : String),
      (tocDetect doc szEnd).get? i = some pidx → titles.get? i = some title →
      (tocRewrite doc (tocDetect doc szEnd) titles).get? pidx
        = (doc.get? pidx).map
            (fun p => rewriteRunsWith (tocNewText (i + 1) title p.text) p)) ∧
    (∀ (i pidx : Nat),
      (tocDetect doc szEnd).get? i = some pidx → titles.length ≤ i →
      (tocRewrite doc (tocDetect doc szEnd) titles).get? pidx = doc.get? pidx) ∧
    (∀ j, j ∉ tocDetect doc szEnd →
      (tocRewrite doc (tocDetect doc szEnd) titles).get? j = doc.get? j) ∧
    (∀ x ∈ tocDetect doc szEnd, x < szEnd) := by
  have hsorted := tocDetect_sorted doc szEnd
  refine ⟨fun i pidx title hE hT => ?_, fun i pidx hE hm => ?_, fun j hj => ?_,
    tocDetect_lt doc szEnd⟩
  · have hpair := zip_get?_some (tocDetect doc szEnd) titles i pidx title hE hT
    have := tocRewriteGo_spec ((tocDetect doc szEnd).zip titles) doc 0
      (pairwise_zip_fst _ _ hsorted) i pidx title hpair
    rw [Nat.zero_add] at this
    exact this
  · rw [tocRewrite]
    refine tocRewriteGo_get?_not_mem _ _ _ _ ?_
    rw [map_fst_zip_take]
    exact sorted_not_mem_take _ i titles.length pidx hsorted hE hm
  · rw [tocRewrite]
    refine tocRewriteGo_get?_not_mem _ _ _ _ ?_
    rw [map_fst_zip_take]
    exact fun hmem => hj (List.mem_of_mem_take hmem)

/-- C7 witness: a TOC heading plus one dotted entry and one available
title; the single entry is rewritten with ordinal 1 from its original
text. -/
theorem c7_toc_rewrite_witness :
    (tocDetect tocDemoDoc 2).get? 0 = some 1 ∧
    (["Overview"] : List String).get? 0 = some "Overview" ∧
    (tocRewrite tocDemoDoc (tocDetect tocDemoDoc 2) ["Overview"]).get? 1
      = ((tocDemoDoc.get? 1).map
          (fun p => rewriteRunsWith (tocNewText 1 "Overview" p.text) p)) :=
  ⟨rfl, rfl, (c7_toc_rewrite tocDemoDoc 2 ["Overview"]).1 0 1 "Overview" rfl rfl⟩

/-- C7 counterexample: a TOC entry whose raw text begins with a tab
(`"\t3"`).  The claim's trailing rule (text from the first multi-dot
run or tab onward) would preserve `"\t3"`, but the code ignores a tab
at character index 0 (`tab_idx > 0`), so the page number is dropped. -/
theorem c7_counterexample :
    tocDetect tocTabDoc 2 = [1] ∧
    ((tocRewrite tocTabDoc (tocDetect tocTabDoc 2) ["Overview"]).get? 1).map Para.text
      = some "1. Overview" ∧
    claimTocNewText 1 "Overview" "\t3" = "1. Overview\t3" ∧
    ("1. Overview" : String) ≠ "1. Overview\t3" :=
  ⟨rfl, rfl, rfl, by decide⟩

/-! # Claim C6 -/

theorem findHeading1_none : ∀ (l : List (Nat × Para)),
    (∀ ip ∈ l, pyStrip ip.2.text ≠ "" →
      containsSub (pyLower ip.2.style) "heading 1" = false) →
    findHeading1 l = none := by
  intro l
  induction l with
  | nil => intro _; rfl
  | cons ip rest ih =>
    intro h
    rcases ip with ⟨i, p⟩
    rw [findHeading1, if_neg, ih (fun x hx => h x (List.mem_cons.mpr (Or.inr hx)))]
    rintro ⟨h1, h2⟩
    have := h (i, p) (List.mem_cons_self _ _) h1
    rw [this] at h2
    cases h2

theorem snd_mem_enumFrom : ∀ (l : List α) (k : Nat) (ip : Nat × α),
    ip ∈ List.enumFrom k l → ip.2 ∈ l := by
  intro l
  induction l with
  | nil => intro k ip h; cases h
  | cons x xs ih =>
    intro k ip h
    simp only [List.enumFrom] at h
    rcases List.mem_cons.mp h with h | h
    · rw [h]
      exact List.mem_cons_self x xs
    · exact List.mem_cons.mpr (Or.inr (ih (k + 1) ip h))

/-- C6: a template with no paragraph styled as a `Heading 1`-equivalent
(among paragraphs with nonempty text) analyzes without error, the
resulting Template DNA has `safe_zone_end_idx = 0` and
`first_content_section_idx = 0`, and the rebuild with that DNA keeps no
safe-zone prefix: the rendered document is exactly the emitted
sections beginning at paragraph index 0. -/
theorem c6_no_heading_fallback (paras : List Para)
    (h : ∀ p ∈ paras, pyStrip p.text ≠ "" →
      containsSub (pyLower p.style) "heading 1" = false) :
    analyze_docx_result (.ok paras) = .ok (analyze_docx_sections paras) ∧
    (analyze_docx_sections paras).safe_zone_end_idx = 0 ∧
    (analyze_docx_sections paras).first_content_section_idx = 0 ∧
    (∀ styles doc sections,
      render_docx_paras styles doc (analyze_docx_sections paras) sections
        = emitAll styles (analyze_docx_sections paras) sections) := by
  have hnone : findHeading1 paras.enum = none :=
    findHeading1_none _ (fun ip hip hs =>
      h ip.2 (snd_mem_enumFrom paras 0 ip hip) hs)
  have hsz : (analyze_docx_sections paras).safe_zone_end_idx = 0 := by
    rw [analyze_docx_sections, hnone]
  refine ⟨rfl, hsz, by rw [analyze_docx_sections, hnone], fun styles doc sections => ?_⟩
  rw [render_docx_paras, hsz]
  simp

/-- C6 witness: a one-paragraph template with a `Normal` style only. -/
theorem c6_no_heading_fallback_witness :
    (∀ p ∈ ([⟨"Normal", [plainRun "hello"], false⟩] : List Para),
      pyStrip p.text ≠ "" → containsSub (pyLower p.style) "heading 1" = false) ∧
    (analyze_docx_sections [⟨"Normal", [plainRun "hello"], false⟩]).safe_zone_end_idx
      = 0 :=
  ⟨by decide, (c6_no_heading_fallback [⟨"Normal", [plainRun "hello"], false⟩]
    (by decide)).2.1⟩

/-! ## First-seen dedup: congruence and adjacent-duplicate collapse -/

theorem firstSeenFrom_congr : ∀ (l : List String) (s1 s2 : List String),
    (∀ x, x ∈ s1 ↔ x ∈ s2) → firstSeenFrom s1 l = firstSeenFrom s2 l := by
  intro l
  induction l with
  | nil => intro s1 s2 _; rfl
  | cons x xs ih =>
    intro s1 s2 h
    simp only [firstSeenFrom]
    by_cases hx : x ∈ s1
    · rw [if_pos hx, if_pos ((h x).mp hx)]
      exact ih s1 s2 h
    · rw [if_neg hx, if_neg (fun hx2 => hx ((h x).mpr hx2))]
      refine congrArg (x :: ·) (ih (x :: s1) (x :: s2) (fun y => ?_))
      simp only [List.mem_cons]
      constructor
      · rintro (hy | hy)
        · exact Or.inl hy
        · exact Or.inr ((h y).mp hy)
      · rintro (hy | hy)
        · exact Or.inl hy
        · exact Or.inr ((h y).mpr hy)

theorem firstSeenFrom_collapse : ∀ (xs seen : List String) (n : String) (ys : List String),
    firstSeenFrom seen (xs ++ n :: n :: ys) = firstSeenFrom seen (xs ++ n :: ys) := by
  intro xs
  induction xs with
  | nil =>
    intro seen n ys
    simp only [List.nil_append]
    by_cases h : n ∈ seen
    · simp only [firstSeenFrom, if_pos h]
    · simp only [firstSeenFrom, if_neg h, if_pos (List.mem_cons_self n seen)]
  | cons x xs ih =>
    intro seen n ys
    simp only [List.cons_append, firstSeenFrom]
    by_cases h : x ∈ seen
    · rw [if_pos h, if_pos h]
      exact ih seen n ys
    · rw [if_neg h, if_neg h]
      exact congrArg (x :: ·) (ih (x :: seen) n ys)

/-! ## itemsOfNorm: basic algebra -/

theorem foldr_items_init : ∀ (l : List Section) (init : List BodyItem),
    l.foldr (fun s acc => s.body.toItems ++ acc) init
      = l.foldr (fun s acc => s.body.toItems ++ acc) [] ++ init := by
  intro l
  induction l with
  | nil => intro init; rfl
  | cons s rest ih =>
    intro init
    simp only [List.foldr_cons]
    rw [ih init, List.append_assoc]

theorem itemsOfNorm_append (n : String) (l1 l2 : List Section) :
    itemsOfNorm n (l1 ++ l2) = itemsOfNorm n l1 ++ itemsOfNorm n l2 := by
  unfold itemsOfNorm
  rw [List.filter_append, List.foldr_append, foldr_items_init]

theorem itemsOfNorm_singleton_eq (s : Section) (n : String)
    (h : normTitle s.title = n) : itemsOfNorm n [s] = s.body.toItems := by
  simp [itemsOfNorm, h]

theorem itemsOfNorm_singleton_ne (s : Section) (n : String)
    (h : ¬ normTitle s.title = n) : itemsOfNorm n [s] = [] := by
  simp [itemsOfNorm, h]

theorem itemsOfNorm_nil_of_not_mem (l : List Section) (n : String)
    (h : n ∉ l.map (fun s => normTitle s.title)) : itemsOfNorm n l = [] := by
  unfold itemsOfNorm
  rw [List.filter_eq_nil_iff.mpr]
  · rfl
  · intro s hs
    simp only [decide_eq_true_eq]
    exact fun he => h (List.mem_map.mpr ⟨s, hs, he⟩)

/-! ## The boundary-merge step is invisible to first-seen titles and
per-title items -/

theorem eq_dropLast_append : ∀ (l : List α) (a : α),
    l.getLast? = some a → l = l.dropLast ++ [a] := by
  intro l
  induction l with
  | nil => intro a h; cases h
  | cons x xs ih =>
    intro a h
    cases xs with
    | nil =>
      simp only [List.getLast?_singleton] at h
      injection h with h
      rw [h]
      rfl
    | cons y ys =>
      rw [List.getLast?_cons_cons] at h
      have hrec := ih a h
      calc x :: y :: ys = x :: ((y :: ys).dropLast ++ [a]) := by rw [← hrec]
        _ = (x :: y :: ys).dropLast ++ [a] := by rfl

theorem mergeStep_firstSeen (acc chunk t : List Section) :
    firstSeen ((mergeStep acc chunk ++ t).map (fun s => normTitle s.title))
      = firstSeen ((acc ++ (chunk ++ t)).map (fun s => normTitle s.title)) := by
  cases chunk with
  | nil => simp [mergeStep]
  | cons first rest =>
    cases hlast : acc.getLast? with
    | none =>
      have hnil : acc = [] := List.getLast?_eq_none_iff.mp hlast
      simp [mergeStep, hlast, hnil]
    | some last =>
      simp only [mergeStep, hlast]
      by_cases hc : normTitle last.title ≠ "" ∧ normTitle first.title ≠ "" ∧
          normTitle last.title = normTitle first.title
      · rw [if_pos hc]
        have hacc := eq_dropLast_append acc last hlast
        conv_rhs => rw [hacc]
        simp only [List.append_assoc, List.cons_append, List.nil_append,
          List.map_append, List.map_cons]
        have hnorm : normTitle (mergeInto last first).title = normTitle last.title := rfl
        rw [hnorm, ← hc.2.2]
        exact (firstSeenFrom_collapse
          (acc.dropLast.map (fun s => normTitle s.title)) []
          (normTitle last.title)
          ((rest.map (fun s => normTitle s.title))
            ++ t.map (fun s => normTitle s.title))).symm
      · rw [if_neg hc]
        rw [List.append_assoc]

theorem mergeStep_items (acc chunk : List Section) (n : String) :
    itemsOfNorm n (mergeStep acc chunk) = itemsOfNorm n (acc ++ chunk) := by
  cases chunk with
  | nil => simp [mergeStep]
  | cons first rest =>
    cases hlast : acc.getLast? with
    | none =>
      have hnil : acc = [] := List.getLast?_eq_none_iff.mp hlast
      simp [mergeStep, hlast, hnil]
    | some last =>
      simp only [mergeStep, hlast]
      by_cases hc : normTitle last.title ≠ "" ∧ normTitle first.title ≠ "" ∧
          normTitle last.title = normTitle first.title
      · rw [if_pos hc]
        have hacc := eq_dropLast_append acc last hlast
        conv_rhs => rw [hacc]
        rw [show (first :: rest : List Section) = [first] ++ rest from rfl]
        rw [itemsOfNorm_append, itemsOfNorm_append, itemsOfNorm_append,
          itemsOfNorm_append, itemsOfNorm_append]
        by_cases hn : normTitle last.title = n
        · rw [itemsOfNorm_singleton_eq (mergeInto last first) n hn,
            itemsOfNorm_singleton_eq last n hn,
            itemsOfNorm_singleton_eq first n (by rw [← hc.2.2]; exact hn)]
          simp [mergeInto, mergeBodies, Body.toItems, List.append_assoc]
        · rw [itemsOfNorm_singleton_ne (mergeInto last first) n hn,
            itemsOfNorm_singleton_ne last n hn,
            itemsOfNorm_singleton_ne first n (by rw [← hc.2.2]; exact hn)]
          simp
      · rw [if_neg hc]

theorem boundary_fold_firstSeen : ∀ (all : List (List Section)) (acc : List Section),
    firstSeen ((List.foldl mergeStep acc all).map (fun s => normTitle s.title))
      = firstSeen ((acc ++ all.flatten).map (fun s => normTitle s.title)) := by
  intro all
  induction all with
  | nil => intro acc; simp
  | cons c rest ih =>
    intro acc
    rw [List.foldl_cons, ih (mergeStep acc c), List.flatten_cons]
    have h1 := mergeStep_firstSeen acc c rest.flatten
    have h2 : (mergeStep acc c) ++ rest.flatten
        = mergeStep acc c ++ rest.flatten := rfl
    rw [h1]

theorem boundary_fold_items : ∀ (all : List (List Section)) (acc : List Section) (n : String),
    itemsOfNorm n (List.foldl mergeStep acc all) = itemsOfNorm n (acc ++ all.flatten) := by
  intro all
  induction all with
  | nil => intro acc n; simp
  | cons c rest ih =>
    intro acc n
    rw [List.foldl_cons, ih (mergeStep acc c) n, List.flatten_cons,
      itemsOfNorm_append, mergeStep_items, itemsOfNorm_append,
      ← List.append_assoc, itemsOfNorm_append, itemsOfNorm_append]

/-! ## The global dedup pass: invariants and characterization -/

theorem modifyAt_map {α β : Type} (g : α → β) (f : α → α) (hf : ∀ x, g (f x) = g x) :
    ∀ (l : List α) (i : Nat), (modifyAt l i f).map g = l.map g := by
  intro l
  induction l with
  | nil => intro i; rfl
  | cons x xs ih =>
    intro i
    cases i with
    | zero => simp [modifyAt, hf]
    | succ j => simp [modifyAt, ih j]

theorem alookup_append_some : ∀ (s1 s2 : List (String × Nat)) (key : String) (v : Nat),
    alookup s1 key = some v → alookup (s1 ++ s2) key = some v := by
  intro s1
  induction s1 with
  | nil => intro s2 key v h; cases h
  | cons kv rest ih =>
    intro s2 key v h
    rcases kv with ⟨k, w⟩
    rw [List.cons_append, alookup]
    rw [alookup] at h
    by_cases hk : k = key
    · rw [if_pos hk] at h ⊢; exact h
    · rw [if_neg hk] at h ⊢; exact ih s2 key v h

theorem alookup_append_none : ∀ (s1 s2 : List (String × Nat)) (key : String),
    alookup s1 key = none → alookup (s1 ++ s2) key = alookup s2 key := by
  intro s1
  induction s1 with
  | nil => intro s2 key _; rfl
  | cons kv rest ih =>
    intro s2 key h
    rcases kv with ⟨k, w⟩
    rw [List.cons_append, alookup]
    rw [alookup] at h
    by_cases hk : k = key
    · rw [if_pos hk] at h; cases h
    · rw [if_neg hk] at h ⊢; exact ih s2 key h

theorem firstSeenFrom_nodup_fresh : ∀ (l seen : List String),
    List.Nodup (firstSeenFrom seen l) ∧ ∀ x ∈ firstSeenFrom seen l, x ∉ seen := by
  intro l
  induction l with
  | nil => intro seen; exact ⟨List.nodup_nil, fun x hx => absurd hx (List.not_mem_nil x)⟩
  | cons x xs ih =>
    intro seen
    rw [firstSeenFrom]
    by_cases hx : x ∈ seen
    · rw [if_pos hx]; exact ih seen
    · rw [if_neg hx]
      obtain ⟨hnd, hfresh⟩ := ih (x :: seen)
      refine ⟨List.nodup_cons.mpr ⟨fun hmem => ?_, hnd⟩, fun y hy => ?_⟩
      · exact (hfresh x hmem) (List.mem_cons_self x seen)
      · rcases List.mem_cons.mp hy with hy | hy
        · rw [hy]; exact hx
        · exact fun hseen => (hfresh y hy) (List.mem_cons.mpr (Or.inr hseen))

/-- Master invariant of the dedup fold (`dedupGo l out seen` with `pre`
the already-consumed input): `seen` is the dictionary from normalized
title to its position in `out`, `out`'s normalized titles are distinct,
and each output section's body already accumulates every body item of
`pre` with its title.  Conclusions: the output's normalized-title list
extends `out`'s by the first-seen new titles of `l`, and each output
section's body is exactly the concatenated items of its title across
`pre ++ l`. -/
theorem dedupGo_master : ∀ (l out : List Section) (seen : List (String × Nat))
    (pre : List Section),
    (∀ n, (alookup seen n).isSome ↔ n ∈ out.map (fun s => normTitle s.title)) →
    (∀ n i, alookup seen n = some i →
      ∃ e, out.get? i = some e ∧ normTitle e.title = n) →
    List.Nodup (out.map (fun s => normTitle s.title)) →
    (∀ i e, out.get? i = some e →
      e.body.toItems = itemsOfNorm (normTitle e.title) pre) →
    (∀ n, n ∈ pre.map (fun s => normTitle s.title) →
      n ∈ out.map (fun s => normTitle s.title)) →
    ((dedupGo l out seen).map (fun s => normTitle s.title)
        = out.map (fun s => normTitle s.title)
          ++ firstSeenFrom (out.map (fun s => normTitle s.title))
              (l.map (fun s => normTitle s.title))) ∧
    (∀ i e, (dedupGo l out seen).get? i = some e →
      e.body.toItems = itemsOfNorm (normTitle e.title) (pre ++ l)) := by
  intro l
  induction l with
  | nil =>
    intro out seen pre _ _ _ hitems _
    refine ⟨by simp [dedupGo, firstSeenFrom], fun i e he => ?_⟩
    rw [List.append_nil]
    exact hitems i e he
  | cons s rest ih =>
    intro out seen pre hmem hidx hnd hitems hpre
    cases hlook : alookup seen (normTitle s.title) with
    | some i =>
      obtain ⟨e0, he0, hn0⟩ := hidx _ i hlook
      have hi_lt : i < out.length := by
        rcases List.get?_eq_some.mp he0 with ⟨hb, _⟩
        exact hb
      have hmap' : (modifyAt out i (fun e => mergeInto e s)).map
          (fun s => normTitle s.title) = out.map (fun s => normTitle s.title) :=
        modifyAt_map (fun (t : Section) => normTitle t.title) (fun e => mergeInto e s)
          (fun x => rfl) out i
      have hIH := ih (modifyAt out i (fun e => mergeInto e s)) seen (pre ++ [s])
        (fun n => by rw [hmap']; exact hmem n)
        (fun n j hj => by
          obtain ⟨e, he, hn⟩ := hidx n j hj
          by_cases hji : j = i
          · refine ⟨mergeInto e s, ?_, hn⟩
            rw [hji] at he ⊢
            rw [modifyAt_get?_eq, he]
            rfl
          · exact ⟨e, by rw [modifyAt_get?_ne _ _ _ _ hji]; exact he, hn⟩)
        (by rw [hmap']; exact hnd)
        (fun j e' he' => by
          by_cases hji : j = i
          · rw [hji, modifyAt_get?_eq, he0] at he'
            injection he' with he'
            have hne' : normTitle e'.title = normTitle s.title := by
              rw [← he']
              exact hn0
            rw [hne', itemsOfNorm_append,
              itemsOfNorm_singleton_eq s (normTitle s.title) rfl]
            have hbody : e'.body.toItems = e0.body.toItems ++ s.body.toItems := by
              rw [← he']
              rfl
            rw [hbody, hitems i e0 he0, hn0]
          · rw [modifyAt_get?_ne _ _ _ _ hji] at he'
            have hold := hitems j e' he'
            have hdiff : normTitle e'.title ≠ normTitle s.title := by
              intro heq
              have hm1 : (out.map (fun s => normTitle s.title)).get? j
                  = some (normTitle s.title) := by
                rw [List.get?_map, he']
                simp [heq]
              have hm2 : (out.map (fun s => normTitle s.title)).get? i
                  = some (normTitle s.title) := by
                rw [List.get?_map, he0]
                simp [hn0]
              have hj_lt : j < (out.map (fun s => normTitle s.title)).length := by
                rcases List.get?_eq_some.mp hm1 with ⟨hb, _⟩
                exact hb
              exact hji (List.get?_inj hj_lt hnd (by rw [hm1, hm2]))
            rw [itemsOfNorm_append, itemsOfNorm_singleton_ne s _ (fun h => hdiff h.symm),
              List.append_nil]
            exact hold)
        (fun n hn => by
          rw [hmap']
          rcases List.mem_map.mp hn with ⟨x, hx, hxe⟩
          rcases List.mem_append.mp hx with hx | hx
          · exact hpre n (List.mem_map.mpr ⟨x, hx, hxe⟩)
          · simp only [List.mem_singleton] at hx
            subst hx
            rw [← hxe]
            exact (hmem _).mp (by rw [hlook]; rfl))
      have hseen_mem : normTitle s.title ∈ out.map (fun s => normTitle s.title) :=
        (hmem _).mp (by rw [hlook]; rfl)
      constructor
      · rw [dedupGo, hlook]
        rw [hIH.1, hmap', List.map_cons, firstSeenFrom, if_pos hseen_mem]
      · intro j e' he'
        rw [dedupGo, hlook] at he'
        have := hIH.2 j e' he'
        rw [List.append_assoc] at this
        exact this
    | none =>
      have hnotmem : normTitle s.title ∉ out.map (fun s => normTitle s.title) := by
        intro hm
        have := (hmem _).mpr hm
        rw [hlook] at this
        cases this
      have hmapout : (out ++ [s]).map (fun s => normTitle s.title)
          = out.map (fun s => normTitle s.title) ++ [normTitle s.title] := by
        simp
      have hIH := ih (out ++ [s]) (seen ++ [(normTitle s.title, out.length)]) (pre ++ [s])
        (fun n => by
          rw [hmapout]
          cases hl2 : alookup seen n with
          | some v =>
            rw [alookup_append_some _ _ _ _ hl2]
            have hmm := (hmem n).mp (by rw [hl2]; rfl)
            simp only [Option.isSome_some, List.mem_append, true_iff]
            exact Or.inl hmm
          | none =>
            rw [alookup_append_none _ _ _ hl2, alookup]
            have hnm : n ∉ out.map (fun s => normTitle s.title) := by
              intro hm
              have := (hmem n).mpr hm
              rw [hl2] at this
              cases this
            by_cases he : normTitle s.title = n
            · rw [if_pos he]
              simp only [Option.isSome_some, List.mem_append, List.mem_singleton,
                true_iff]
              exact Or.inr he.symm
            · rw [if_neg he]
              constructor
              · intro h
                simp [alookup] at h
              · intro h
                rcases List.mem_append.mp h with h | h
                · exact absurd h hnm
                · simp only [List.mem_singleton] at h
                  exact absurd h.symm he)
        (fun n j hj => by
          cases hl2 : alookup seen n with
          | some v =>
            rw [alookup_append_some _ _ _ _ hl2] at hj
            injection hj with hj
            obtain ⟨e, he, hn⟩ := hidx n v hl2
            have hv_lt : v < out.length := by
              rcases List.get?_eq_some.mp he with ⟨hb, _⟩
              exact hb
            refine ⟨e, ?_, hn⟩
            rw [← hj, List.get?_append hv_lt]
            exact he
          | none =>
            rw [alookup_append_none _ _ _ hl2, alookup] at hj
            by_cases he : normTitle s.title = n
            · rw [if_pos he] at hj
              injection hj with hj
              refine ⟨s, ?_, he⟩
              rw [← hj, List.get?_append_right (le_refl _), Nat.sub_self]
              rfl
            · rw [if_neg he] at hj
              cases hj)
        (by
          rw [hmapout, List.nodup_append]
          exact ⟨hnd, List.nodup_singleton _,
            fun a ha => by
              simp only [List.mem_singleton]
              intro hae
              rw [hae] at ha
              exact hnotmem ha⟩)
        (fun j e' he' => by
          by_cases hj_lt : j < out.length
          · rw [List.get?_append hj_lt] at he'
            have hold := hitems j e' he'
            have hdiff : normTitle e'.title ≠ normTitle s.title := by
              intro heq
              refine hnotmem ?_
              rw [← heq]
              exact List.mem_map.mpr ⟨e', List.get?_mem he', rfl⟩
            rw [itemsOfNorm_append,
              itemsOfNorm_singleton_ne s _ (fun h => hdiff h.symm), List.append_nil]
            exact hold
          · push_neg at hj_lt
            rw [List.get?_append_right hj_lt] at he'
            cases hd : j - out.length with
            | zero =>
              rw [hd] at he'
              injection he' with he'
              subst he'
              rw [itemsOfNorm_append,
                itemsOfNorm_singleton_eq s (normTitle s.title) rfl]
              have hnp : normTitle s.title ∉ pre.map (fun s => normTitle s.title) :=
                fun hm => hnotmem (hpre _ hm)
              rw [itemsOfNorm_nil_of_not_mem pre _ hnp, List.nil_append]
            | succ d =>
              rw [hd] at he'
              cases he'
          )
        (fun n hn => by
          rw [hmapout]
          rcases List.mem_map.mp hn with ⟨x, hx, hxe⟩
          rcases List.mem_append.mp hx with hx | hx
          · exact List.mem_append.mpr
              (Or.inl (hpre n (List.mem_map.mpr ⟨x, hx, hxe⟩)))
          · simp only [List.mem_singleton] at hx
            subst hx
            exact List.mem_append.mpr (Or.inr (by simp [hxe])))
      constructor
      · rw [dedupGo, hlook]
        rw [hIH.1, hmapout, List.map_cons, firstSeenFrom, if_neg hnotmem]
        rw [firstSeenFrom_congr (rest.map (fun s => normTitle s.title))
          (out.map (fun s => normTitle s.title) ++ [normTitle s.title])
          (normTitle s.title :: out.map (fun s => normTitle s.title))
          (fun x => by simp [List.mem_append, List.mem_cons, Or.comm])]
        simp [List.append_assoc]
      · intro j e' he'
        rw [dedupGo, hlook] at he'
        have := hIH.2 j e' he'
        rw [List.append_assoc] at this
        exact this

/-- The dedup pass from the empty state: output titles are the
first-seen distinct normalized titles of the input, and each output
section's body is the concatenation, in arrival order, of every body
item the input carries under that normalized title. -/
theorem dedupSections_spec (l : List Section) :
    ((dedupSections l).map (fun s => normTitle s.title)
        = firstSeen (l.map (fun s => normTitle s.title))) ∧
    (∀ i e, (dedupSections l).get? i = some e →
      e.body.toItems = itemsOfNorm (normTitle e.title) l) := by
  have h := dedupGo_master l [] [] []
    (fun n => by simp [alookup])
    (fun n i hni => by cases hni)
    List.nodup_nil
    (fun i e hie => by simp at hie)
    (fun n hn => by simp at hn)
  refine ⟨?_, fun i e he => by simpa using h.2 i e he⟩
  have h1 := h.1
  simpa [firstSeen] using h1

theorem dedupSections_nodup (l : List Section) :
    List.Nodup ((dedupSections l).map (fun s => normTitle s.title)) := by
  rw [(dedupSections_spec l).1]
  exact (firstSeenFrom_nodup_fresh (l.map (fun s => normTitle s.title)) []).1

/-! ## Runs of the dedup pass over distinct-titled prefixes -/

theorem alookup_seenEntries_none : ∀ (l : List Section) (offset : Nat) (key : String),
    (∀ x ∈ l, normTitle x.title ≠ key) →
    alookup (seenEntries offset l) key = none := by
  intro l
  induction l with
  | nil => intro offset key _; rfl
  | cons s rest ih =>
    intro offset key h
    rw [seenEntries, alookup, if_neg (h s (List.mem_cons_self s rest))]
    exact ih (offset + 1) key (fun x hx => h x (List.mem_cons.mpr (Or.inr hx)))

theorem alookup_seenEntries_last : ∀ (l1 : List Section) (s : Section) (offset : Nat)
    (key : String),
    (∀ x ∈ l1, normTitle x.title ≠ key) → normTitle s.title = key →
    alookup (seenEntries offset (l1 ++ [s])) key = some (offset + l1.length) := by
  intro l1
  induction l1 with
  | nil =>
    intro s offset key _ hs
    rw [List.nil_append, seenEntries, alookup, if_pos hs]
    rfl
  | cons x xs ih =>
    intro s offset key h hs
    rw [List.cons_append, seenEntries, alookup,
      if_neg (h x (List.mem_cons_self x xs)),
      ih s (offset + 1) key (fun y hy => h y (List.mem_cons.mpr (Or.inr hy))) hs]
    congr 1
    simp only [List.length_cons]
    omega

theorem modifyAt_append_last : ∀ (l1 : List α) (a : α) (f : α → α),
    modifyAt (l1 ++ [a]) l1.length f = l1 ++ [f a] := by
  intro l1
  induction l1 with
  | nil => intro a f; rfl
  | cons x xs ih =>
    intro a f
    simp only [List.cons_append, List.length_cons, modifyAt]
    exact congrArg (x :: ·) (ih a f)

theorem mergeStep_nil : ∀ (chunk : List Section), mergeStep [] chunk = chunk := by
  intro chunk
  cases chunk <;> rfl

theorem boundaryMerge_pair (A B : List Section) :
    boundaryMerge [A, B] = mergeStep A B := by
  simp [boundaryMerge, mergeStep_nil]

/-- Running the dedup pass over a prefix whose normalized titles are
fresh and distinct appends the prefix to the output verbatim and
records one dictionary entry per section. -/
theorem dedupGo_distinct : ∀ (l rest out : List Section) (seen : List (String × Nat)),
    (∀ n ∈ l.map (fun s => normTitle s.title), alookup seen n = none) →
    List.Nodup (l.map (fun s => normTitle s.title)) →
    dedupGo (l ++ rest) out seen
      = dedupGo rest (out ++ l) (seen ++ seenEntries out.length l) := by
  intro l
  induction l with
  | nil => intro rest out seen _ _; simp [seenEntries]
  | cons s l' ih =>
    intro rest out seen hnone hnd
    have hs : alookup seen (normTitle s.title) = none :=
      hnone _ (by simp)
    rw [List.cons_append, dedupGo, hs]
    have h' := hnd
    rw [List.map_cons, List.nodup_cons] at h'
    obtain ⟨hhead, htail⟩ := h'
    have hstep := ih rest (out ++ [s]) (seen ++ [(normTitle s.title, out.length)])
      (fun n hn => by
        rw [alookup_append_none _ _ _ (hnone n (by simp [hn])), alookup,
          if_neg (fun he => hhead (by rw [he]; exact hn))]
        rfl)
      htail
    rw [hstep]
    have e1 : (out ++ [s]) ++ l' = out ++ s :: l' := by simp
    have e2 : (seen ++ [(normTitle s.title, out.length)])
          ++ seenEntries (out ++ [s]).length l'
        = seen ++ seenEntries out.length (s :: l') := by
      rw [seenEntries]
      simp [List.append_assoc, List.length_append]
    rw [e1, e2]

theorem dedupGo_distinct_all (l out : List Section) (seen : List (String × Nat))
    (h1 : ∀ n ∈ l.map (fun s => normTitle s.title), alookup seen n = none)
    (h2 : List.Nodup (l.map (fun s => normTitle s.title))) :
    dedupGo l out seen = out ++ l := by
  have := dedupGo_distinct l [] out seen h1 h2
  rw [List.append_nil] at this
  rw [this]
  rfl

theorem dedup_of_nodup (l : List Section)
    (h : List.Nodup (l.map (fun s => normTitle s.title))) :
    dedupSections l = l := by
  have := dedupGo_distinct_all l [] [] (fun n _ => rfl) h
  rw [dedupSections, this, List.nil_append]

theorem merge_eq_dedup_of_two (all : List (List Section)) (h : 2 ≤ all.length) :
    merge_section_mappings all = dedupSections (boundaryMerge all) := by
  rcases all with _ | ⟨a, _ | ⟨b, rest⟩⟩
  · simp at h
  · simp at h
  · rfl

/-! # Claims C2 and C4 -/

/-- C2 (amended): for every list of **at least two** chunk-result
lists, the merge output has pairwise-distinct normalized titles which
appear in the first-seen order of the flattened input, and each output
section's body items are the concatenation, in arrival order, of every
input body item carried under its normalized title; the two-chunk
`"Experience"` scenario merges into one section with body
`[worked at X, worked at Y]`.  (A single chunk-result list is returned
unchanged, so there the guarantee does not apply.) -/
theorem c2_amended_merge_guarantees :
    (∀ all : List (List Section), 2 ≤ all.length →
      List.Nodup ((merge_section_mappings all).map (fun s => normTitle s.title)) ∧
      (merge_section_mappings all).map (fun s => normTitle s.title)
        = firstSeen (all.flatten.map (fun s => normTitle s.title)) ∧
      (∀ sec ∈ merge_section_mappings all,
        sec.body.toItems = itemsOfNorm (normTitle sec.title) all.flatten)) ∧
    merge_section_mappings
        [[⟨"Experience", .items [⟨"text", "worked at X"⟩]⟩],
         [⟨"Experience", .items [⟨"text", "worked at Y"⟩]⟩]]
      = [⟨"Experience", .items [⟨"text", "worked at X"⟩, ⟨"text", "worked at Y"⟩]⟩] := by
  refine ⟨fun all h2 => ?_, by rfl⟩
  rw [merge_eq_dedup_of_two all h2]
  have hspec := dedupSections_spec (boundaryMerge all)
  have hnorm : (dedupSections (boundaryMerge all)).map (fun s => normTitle s.title)
      = firstSeen (all.flatten.map (fun s => normTitle s.title)) := by
    rw [hspec.1]
    have hbf := boundary_fold_firstSeen all []
    simpa using hbf
  refine ⟨?_, hnorm, fun sec hmemsec => ?_⟩
  · exact dedupSections_nodup (boundaryMerge all)
  · obtain ⟨i, hi⟩ := List.mem_iff_get?.mp hmemsec
    rw [hspec.2 i sec hi]
    have hitems := boundary_fold_items all [] (normTitle sec.title)
    simpa using hitems

/-- C2 witness: two single-section chunks titled `"Experience"`. -/
theorem c2_amended_merge_guarantees_witness :
    (2 ≤ ([[⟨"Experience", .items [⟨"text", "worked at X"⟩]⟩],
           [⟨"Experience", .items [⟨"text", "worked at Y"⟩]⟩]] :
        List (List Section)).length) ∧
    List.Nodup ((merge_section_mappings
        [[⟨"Experience", .items [⟨"text", "worked at X"⟩]⟩],
         [⟨"Experience", .items [⟨"text", "worked at Y"⟩]⟩]]).map
      (fun s => normTitle s.title)) :=
  ⟨by decide,
    (c2_amended_merge_guarantees.1 _ (by decide)).1⟩

/-- C4 counterexample: `A = [S, T]`, `B = [T, S]` share the boundary
title `T`, so `A'` is `[S, T(joined), S]`; the left side runs the
global dedup (collapsing the two `S` sections), while `merge([A'])` is
the single-chunk passthrough, so the two sides differ. -/
theorem c4_counterexample :
    (([⟨"S", .items []⟩, ⟨"T", .items []⟩] : List Section).getLast?).map
        (fun s => normTitle s.title) = some "t" ∧
    (([⟨"T", .items []⟩, ⟨"S", .items []⟩] : List Section).head?).map
        (fun s => normTitle s.title) = some "t" ∧
    merge_section_mappings
        [[⟨"S", .items []⟩, ⟨"T", .items []⟩], [⟨"T", .items []⟩, ⟨"S", .items []⟩]]
      ≠ merge_section_mappings
        [preJoin [⟨"S", .items []⟩, ⟨"T", .items []⟩]
          [⟨"T", .items []⟩, ⟨"S", .items []⟩]] :=
  ⟨rfl, rfl, by decide⟩

/-- C4 (amended): `merge([A, B])` equals `merge([A'])` — `A'` being `A`
with its last section's body concatenated with `B`'s first section's
body, followed by `B`'s remaining sections — provided `A'` contains no
two sections with the same normalized title; without that proviso the
left side's global dedup pass can collapse further sections while the
right side is the single-chunk passthrough. -/
theorem c4_prejoin_equivalence (A B : List Section) (last first : Section)
    (hA : A.getLast? = some last) (hB : B.head? = some first)
    (heq : normTitle last.title = normTitle first.title)
    (hnd : List.Nodup ((preJoin A B).map (fun s => normTitle s.title))) :
    merge_section_mappings [A, B] = merge_section_mappings [preJoin A B] := by
  obtain ⟨Bt, rfl⟩ : ∃ Bt, B = first :: Bt := by
    cases B with
    | nil => cases hB
    | cons b bt =>
      simp only [List.head?_cons] at hB
      injection hB with hB
      exact ⟨bt, by rw [hB]⟩
  · have hpj : preJoin A (first :: Bt)
        = A.dropLast ++ [⟨last.title, mergeBodies last.body first.body⟩] ++ Bt := by
      simp only [preJoin, hA]
    have hmerge2 : merge_section_mappings [A, first :: Bt]
        = dedupSections (boundaryMerge [A, first :: Bt]) :=
      merge_eq_dedup_of_two _ (by simp)
    have hsingle : merge_section_mappings [preJoin A (first :: Bt)]
        = preJoin A (first :: Bt) := rfl
    have hacc := eq_dropLast_append A last hA
    by_cases hne : normTitle last.title = ""
    · -- empty normalized boundary title: no boundary fuse, the global
      -- dedup performs the same join
      have hstep : mergeStep A (first :: Bt) = A ++ first :: Bt := by
        simp only [mergeStep, hA]
        rw [if_neg]
        rintro ⟨h1, _, _⟩
        exact h1 hne
      -- unpack the distinctness of A' into its components
      have hnd' : List.Nodup ((A.dropLast.map (fun s => normTitle s.title))
          ++ normTitle last.title :: Bt.map (fun s => normTitle s.title)) := by
        have := hnd
        rw [hpj] at this
        simpa using this
      rw [List.nodup_append] at hnd'
      obtain ⟨hdl_nd, hx, hdisj⟩ := hnd'
      rw [List.nodup_cons] at hx
      obtain ⟨hlast_notin_Bt, hBt_nd⟩ := hx
      have hlast_notin_dl : normTitle last.title
          ∉ A.dropLast.map (fun s => normTitle s.title) := by
        intro hm
        exact hdisj hm (List.mem_cons_self _ _)
      have hBt_fresh : ∀ n ∈ Bt.map (fun s => normTitle s.title),
          n ∉ A.dropLast.map (fun s => normTitle s.title) ∧ n ≠ normTitle last.title := by
        intro n hn
        constructor
        · intro hmdl
          exact hdisj hmdl (List.mem_cons.mpr (Or.inr hn))
        · intro he
          exact hlast_notin_Bt (he ▸ hn)
      have hA_nd : List.Nodup (A.map (fun s => normTitle s.title)) := by
        have hmapA : A.map (fun s => normTitle s.title)
            = A.dropLast.map (fun s => normTitle s.title) ++ [normTitle last.title] := by
          conv_lhs => rw [hacc]
          simp
        rw [hmapA, List.nodup_append]
        refine ⟨hdl_nd, by simp, ?_⟩
        intro a ha hb
        simp only [List.mem_singleton] at hb
        rw [hb] at ha
        exact hlast_notin_dl ha
      -- run the dedup: A passes through, `first` merges into `last`,
      -- the tail passes through
      rw [hmerge2, boundaryMerge_pair, hstep, hsingle, dedupSections]
      rw [dedupGo_distinct A (first :: Bt) [] [] (fun n _ => rfl) hA_nd]
      rw [List.nil_append, List.nil_append]
      simp only [List.length_nil]
      rw [dedupGo]
      have hlook : alookup (seenEntries 0 A) (normTitle first.title)
          = some A.dropLast.length := by
        have := alookup_seenEntries_last A.dropLast last 0 (normTitle first.title)
          (fun x hx hxe => by
            rw [← heq] at hxe
            exact hlast_notin_dl (hxe ▸ List.mem_map.mpr ⟨x, hx, rfl⟩))
          heq
        rw [← hacc] at this
        simpa using this
      rw [hlook]
      dsimp only
      have hmod : modifyAt A A.dropLast.length (fun e => mergeInto e first)
          = A.dropLast ++ [mergeInto last first] := by
        have h1 := modifyAt_append_last A.dropLast last (fun e => mergeInto e first)
        rw [← hacc] at h1
        exact h1
      rw [hmod]
      rw [dedupGo_distinct_all Bt _ _
        (fun n hn => alookup_seenEntries_none A 0 n (fun x hx hxe => by
          rcases List.mem_append.mp (by rw [hacc] at hx; exact hx) with hx2 | hx2
          · exact (hBt_fresh n hn).1 (hxe ▸ List.mem_map.mpr ⟨x, hx2, rfl⟩)
          · simp only [List.mem_singleton] at hx2
            subst hx2
            exact (hBt_fresh n hn).2 hxe.symm))
        hBt_nd]
      rw [hpj]
      simp [mergeInto, List.append_assoc]
    · -- nonempty boundary title: the boundary pass performs the join
      have hcond : normTitle last.title ≠ "" ∧ normTitle first.title ≠ "" ∧
          normTitle last.title = normTitle first.title :=
        ⟨hne, by rw [← heq]; exact hne, heq⟩
      have hstep : mergeStep A (first :: Bt)
          = A.dropLast ++ [mergeInto last first] ++ Bt := by
        simp only [mergeStep, hA]
        rw [if_pos hcond]
      rw [hmerge2, boundaryMerge_pair, hstep, hsingle]
      have hstep_pj : A.dropLast ++ [mergeInto last first] ++ Bt
          = preJoin A (first :: Bt) := by
        rw [hpj]
        rfl
      rw [hstep_pj]
      exact dedup_of_nodup _ hnd

/-- C4 witness: a boundary section `"Experience"` split across the two
chunks, with all other titles distinct. -/
theorem c4_prejoin_equivalence_witness :
    (([⟨"Intro", .items [⟨"text", "hi"⟩]⟩,
       ⟨"Experience", .items [⟨"text", "at X"⟩]⟩] : List Section).getLast?
      = some ⟨"Experience", .items [⟨"text", "at X"⟩]⟩) ∧
    (([⟨" experience ", .items [⟨"text", "at Y"⟩]⟩,
       ⟨"Skills", .items []⟩] : List Section).head?
      = some ⟨" experience ", .items [⟨"text", "at Y"⟩]⟩) ∧
    merge_section_mappings
        [[⟨"Intro", .items [⟨"text", "hi"⟩]⟩,
          ⟨"Experience", .items [⟨"text", "at X"⟩]⟩],
         [⟨" experience ", .items [⟨"text", "at Y"⟩]⟩, ⟨"Skills", .items []⟩]]
      = merge_section_mappings
        [preJoin
          [⟨"Intro", .items [⟨"text", "hi"⟩]⟩,
           ⟨"Experience", .items [⟨"text", "at X"⟩]⟩]
          [⟨" experience ", .items [⟨"text", "at Y"⟩]⟩, ⟨"Skills", .items []⟩]] :=
  ⟨rfl, rfl,
    c4_prejoin_equivalence _ _
      ⟨"Experience", .items [⟨"text", "at X"⟩]⟩
      ⟨" experience ", .items [⟨"text", "at Y"⟩]⟩
      rfl rfl rfl (by decide)⟩

end Optira
